import Mathlib

/-!
# Cache simulator (`src/cache_sim.c`): shallow embedding and verified properties

The C program simulates a set-associative cache with an LRU replacement policy.
Unsigned machine integers are natural numbers; every arithmetic step that can
leave the range of its C type is reduced modulo `2 ^ 32` (`uint32_t`) or
`2 ^ 64` (`uint64_t`).  The array of `ways` lines owned by a set is the list of
its entries, and a loop `for (w = 0; w < ways; w++)` over that array is a
recursion over the list that carries the running index `w`.
-/

namespace CacheSim

/-! ## Data model -/

/-- One cache line (`CacheLine`): valid bit, tag (`uint64_t`), LRU counter (`uint32_t`). -/
structure CacheLine where
  valid : Bool
  tag : Nat
  lru : Nat
deriving DecidableEq

/-- The content of a line after `calloc`: all fields zero. -/
instance : Inhabited CacheLine := ⟨⟨false, 0, 0⟩⟩

/-- One set (`CacheSet`): its lines and the associativity. -/
structure CacheSet where
  lines : List CacheLine
  ways : Nat
deriving DecidableEq

instance : Inhabited CacheSet := ⟨⟨[], 0⟩⟩

/-- The whole cache (`Cache`). -/
structure Cache where
  sets : List CacheSet
  num_sets : Nat
  ways : Nat
  block_size : Nat
  cache_size : Nat
  index_mask : Nat
  index_shift : Nat
  offset_mask : Nat
  accesses : Nat
  hits : Nat
  misses : Nat
deriving DecidableEq

/-- The ways `cache_create` can stop without building a cache: the five `die`
calls of the validation, in source order, and the undefined behaviour of
`cache_size % (block_size*ways)` when the 32-bit product is zero. -/
inductive CreateError where
  | cache_size_not_pow2
  | block_size_not_pow2
  | block_gt_cache
  | ways_zero
  | not_divisible
  | modulo_by_zero
deriving DecidableEq

/-! ## Helper functions -/

/-- Function `is_power_of_two`: `x && ((x & (x-1)) == 0)`.  The subtraction is only
evaluated for `x ≠ 0`, where it does not wrap. -/
def is_power_of_two (x : Nat) : Bool :=
  x != 0 && (x &&& (x - 1)) == 0

/-- The counting loops of `cache_compute_masks`:
`for (b = x; b > 1; b >>= 1) bits++`.  The first argument bounds the number of
iterations; a `uint32_t` needs at most 32. -/
def shift_count : Nat → Nat → Nat
  | 0, _ => 0
  | fuel + 1, b => if b > 1 then shift_count fuel (b >>> 1) + 1 else 0

/-- Function `cache_compute_masks`: offset mask, index mask and index shift. -/
def cache_compute_masks (c : Cache) : Cache :=
  let off_bits := shift_count 32 c.block_size
  let idx_bits := shift_count 32 c.num_sets
  { c with
    offset_mask := ((1 <<< off_bits) % 4294967296 + 4294967296 - 1) % 4294967296
    index_mask := ((1 <<< idx_bits) % 4294967296 + 4294967296 - 1) % 4294967296
    index_shift := off_bits }

/-- Function `cache_create`: validation, zero-initialised sets, masks.  Arguments are
`uint32_t` values; `block_size*ways` is a 32-bit product.  Allocation is taken
to succeed. -/
def cache_create (cache_size block_size ways : Nat) : Except CreateError Cache :=
  if !is_power_of_two cache_size then .error .cache_size_not_pow2
  else if !is_power_of_two block_size then .error .block_size_not_pow2
  else if block_size > cache_size then .error .block_gt_cache
  else if ways == 0 then .error .ways_zero
  else if (block_size * ways) % 4294967296 == 0 then .error .modulo_by_zero
  else if cache_size % ((block_size * ways) % 4294967296) != 0 then .error .not_divisible
  else
    let num_sets := cache_size / ((block_size * ways) % 4294967296)
    .ok (cache_compute_masks
      { sets := List.replicate num_sets
          { lines := List.replicate ways { valid := false, tag := 0, lru := 0 }, ways := ways }
        num_sets := num_sets
        ways := ways
        block_size := block_size
        cache_size := cache_size
        index_mask := 0
        index_shift := 0
        offset_mask := 0
        accesses := 0
        hits := 0
        misses := 0 })

/-! ## LRU -/

/-- The loop body of `lru_touch` at index `w`, on the line `l = lines[w]`. -/
def touch_line (old hit_way w : Nat) (l : CacheLine) : CacheLine :=
  if w == hit_way then { l with lru := 0 }
  else if l.valid && l.lru ≤ old then { l with lru := (l.lru + 1) % 4294967296 }
  else l

/-- The loop of `lru_touch` over the lines from index `w` on. -/
def lru_touch_loop (old hit_way : Nat) : Nat → List CacheLine → List CacheLine
  | _, [] => []
  | w, l :: ls => touch_line old hit_way w l :: lru_touch_loop old hit_way (w + 1) ls

/-- Function `lru_touch`: the hit line becomes the most recent one; valid lines whose
counter is at most the old counter of the hit line age by one. -/
def lru_touch (set : CacheSet) (hit_way : Nat) : CacheSet :=
  let old := (set.lines.getD hit_way default).lru
  { set with lines := lru_touch_loop old hit_way 0 set.lines }

/-- First loop of `lru_victim`: the first line that is not valid. -/
def first_invalid : Nat → List CacheLine → Option Nat
  | _, [] => none
  | w, l :: ls => if !l.valid then some w else first_invalid (w + 1) ls

/-- Second loop of `lru_victim`, from index `w` on: `victim` is the current
candidate and `vlru` the counter of that line. -/
def max_lru_loop : List CacheLine → Nat → Nat → Nat → Nat
  | [], _, victim, _ => victim
  | l :: ls, w, victim, vlru =>
    if l.lru > vlru then max_lru_loop ls (w + 1) w l.lru
    else max_lru_loop ls (w + 1) victim vlru

/-- Function `lru_victim`: an empty line if there is one, else the line with the
largest counter (the first such line). -/
def lru_victim (set : CacheSet) : Nat :=
  match first_invalid 0 set.lines with
  | some w => w
  | none =>
    match set.lines with
    | [] => 0
    | l :: ls => max_lru_loop ls 1 0 l.lru

/-! ## Cache access -/

/-- Local `block_addr` of `cache_access`: `addr / c->block_size`. -/
def block_addr (c : Cache) (addr : Nat) : Nat :=
  addr / c.block_size

/-- Local `index` of `cache_access`: `(uint32_t)(block_addr & c->index_mask)`. -/
def set_index (c : Cache) (addr : Nat) : Nat :=
  (block_addr c addr &&& c.index_mask) % 4294967296

/-- Local `tag` of `cache_access`: `block_addr >> c->index_shift`. -/
def addr_tag (c : Cache) (addr : Nat) : Nat :=
  block_addr c addr >>> c.index_shift

/-- The lookup loop of `cache_access`: the first valid line holding `tag`. -/
def find_hit (tag : Nat) : Nat → List CacheLine → Option Nat
  | _, [] => none
  | w, l :: ls => if l.valid && l.tag == tag then some w else find_hit tag (w + 1) ls

/-- The body of the ageing loop on the miss path of `cache_access`:
`if (lines[w].valid && w != v) lines[w].lru++`. -/
def age_line (v w : Nat) (l : CacheLine) : CacheLine :=
  if l.valid && w != v then { l with lru := (l.lru + 1) % 4294967296 } else l

/-- The ageing loop on the miss path of `cache_access`, from index `w` on. -/
def miss_age_loop (v : Nat) : Nat → List CacheLine → List CacheLine
  | _, [] => []
  | w, l :: ls => age_line v w l :: miss_age_loop v (w + 1) ls

/-- The miss path of `cache_access` on the addressed set: the victim becomes
valid and takes the tag, the other valid lines age, the victim counter is
reset. -/
def install (set : CacheSet) (v tag : Nat) : CacheSet :=
  let lines1 := set.lines.set v { (set.lines.getD v default) with valid := true, tag := tag }
  let lines2 := miss_age_loop v 0 lines1
  let lines3 := lines2.set v { (lines2.getD v default) with lru := 0 }
  { set with lines := lines3 }

/-- Function `cache_access`: returns `1` on a HIT and `0` on a MISS, with the new state. -/
def cache_access (c : Cache) (addr : Nat) : Nat × Cache :=
  let accesses := (c.accesses + 1) % 18446744073709551616
  let index := set_index c addr
  let tag := addr_tag c addr
  let set := c.sets.getD index default
  match find_hit tag 0 set.lines with
  | some w =>
    (1, { c with
          accesses := accesses
          hits := (c.hits + 1) % 18446744073709551616
          sets := c.sets.set index (lru_touch set w) })
  | none =>
    (0, { c with
          accesses := accesses
          misses := (c.misses + 1) % 18446744073709551616
          sets := c.sets.set index (install set (lru_victim set) tag) })

/-- The state after a sequence of `cache_access` calls. -/
def run (c : Cache) : List Nat → Cache
  | [] => c
  | a :: as => run (cache_access c a).2 as

/-- The results returned by a sequence of `cache_access` calls. -/
def outcomes (c : Cache) : List Nat → List Nat
  | [] => []
  | a :: as => (cache_access c a).1 :: outcomes (cache_access c a).2 as

/-! ## Specification-side definitions -/

/-- The way of the addressed set that an access touches: the matching way on
a hit, the victim on a miss. -/
def touched_way (c : Cache) (addr : Nat) : Nat :=
  let set := c.sets.getD (set_index c addr) default
  match find_hit (addr_tag c addr) 0 set.lines with
  | some w => w
  | none => lru_victim set

/-- Replays `trace` from state `c`, the next access being number `t + 1`, and
returns the number of the last access that touched way `w` of set `i`, or
`cur` when the replayed part has none. -/
def last_touch_from (i w : Nat) : Cache → List Nat → Nat → Nat → Nat
  | _, [], _, cur => cur
  | c, a :: as, t, cur =>
    last_touch_from i w (cache_access c a).2 as (t + 1)
      (if set_index c a = i ∧ touched_way c a = w then t + 1 else cur)

/-- The 1-based position in `trace` of the last access that touched (hit or
installed) way `w` of set `i`, starting from state `c`; `0` when no access did. -/
def last_touch (c : Cache) (trace : List Nat) (i w : Nat) : Nat :=
  last_touch_from i w c trace 0 0

/-- What the miss path leaves in line `u` of the addressed set. -/
def install_line (v tag u : Nat) (l : CacheLine) : CacheLine :=
  if u = v then { valid := true, tag := tag, lru := 0 }
  else if l.valid then { l with lru := (l.lru + 1) % 4294967296 }
  else l

/-- Invariant of one set: `k` lines are valid and they are the first `k`;
`τ u` is the time of the last touch of way `u` and `t` the current time.  The
counters of the valid lines are below `k` and ordered opposite to the touch
times, and the valid lines hold pairwise different tags. -/
structure SetInv (lines : List CacheLine) (τ : Nat → Nat) (t k : Nat) : Prop where
  pos : 0 < lines.length
  small : lines.length < 4294967296
  le : k ≤ lines.length
  valid_iff : ∀ (u : Nat) (l : CacheLine), lines[u]? = some l → (l.valid = true ↔ u < k)
  fresh : ∀ (u : Nat) (l : CacheLine), lines[u]? = some l → k ≤ u → l.lru = 0
  bound : ∀ (u : Nat) (l : CacheLine), lines[u]? = some l → u < k →
    l.lru < k ∧ 0 < τ u ∧ τ u ≤ t
  order : ∀ (u1 u2 : Nat) (l1 l2 : CacheLine), lines[u1]? = some l1 → lines[u2]? = some l2 →
    u1 < k → u2 < k → (l1.lru < l2.lru ↔ τ u2 < τ u1)
  time_inj : ∀ (u1 u2 : Nat), u1 < k → u2 < k → τ u1 = τ u2 → u1 = u2
  tag_inj : ∀ (u1 u2 : Nat) (l1 l2 : CacheLine), lines[u1]? = some l1 → lines[u2]? = some l2 →
    u1 < k → u2 < k → l1.tag = l2.tag → u1 = u2

/-- Invariant of the cache: the set array has `num_sets` entries of `ways`
lines each, every index that `cache_access` computes is in range, and every
set satisfies `SetInv` for the touch times `T i`. -/
structure CacheInv (c : Cache) (T : Nat → Nat → Nat) (t : Nat) : Prop where
  length_sets : c.sets.length = c.num_sets
  index_lt : ∀ (addr : Nat), set_index c addr < c.num_sets
  length_lines : ∀ (i : Nat), i < c.num_sets → (c.sets.getD i default).lines.length = c.ways
  sets_inv : ∀ (i : Nat), i < c.num_sets → ∃ k, SetInv (c.sets.getD i default).lines (T i) t k

/-- The set addressed by `addr`: `set = &c->sets[index]` in `cache_access`. -/
def addressed_set (c : Cache) (addr : Nat) : CacheSet :=
  c.sets.getD (set_index c addr) default

/-- The cache that `cache_create 32 16 2` builds: one set of two lines. -/
def cache_32_16_2 : Cache :=
  { sets := [{ lines := [{ valid := false, tag := 0, lru := 0 }, { valid := false, tag := 0, lru := 0 }],
               ways := 2 }]
    num_sets := 1, ways := 2, block_size := 16, cache_size := 32,
    index_mask := 0, index_shift := 4, offset_mask := 15,
    accesses := 0, hits := 0, misses := 0 }

/-! ## The built-in sequence and the canonical LRU stack -/

/-- The address sequence `seq` of `run_builtin`. -/
def builtin_seq : List Nat :=
  [0x0000, 0x0004, 0x0008, 0x000C, 0x0010, 0x0014, 0x0018, 0x001C,
   0x0020, 0x0024, 0x0028, 0x002C, 0x0030, 0x0034, 0x0038, 0x003C,
   0x0000, 0x0004, 0x0008, 0x000C,
   0x1000, 0x1004, 0x1008, 0x100C,
   0x0000, 0x0800, 0x1000, 0x1800]

/-- Function `run_builtin`: the accesses of the built-in sequence, in order. -/
def run_builtin (c : Cache) : Cache :=
  run c builtin_seq

/-- The hit-path update of a canonical LRU stack at index `w`: the touched
line moves to the front, and only valid lines strictly more recent than the
touched one (counter below its old counter) age by one. -/
def canonical_touch_line (old hit_way w : Nat) (l : CacheLine) : CacheLine :=
  if w == hit_way then { l with lru := 0 }
  else if l.valid && l.lru < old then { l with lru := (l.lru + 1) % 4294967296 }
  else l

/-- The canonical update over the lines from index `w` on. -/
def canonical_touch_loop (old hit_way : Nat) : Nat → List CacheLine → List CacheLine
  | _, [] => []
  | w, l :: ls =>
    canonical_touch_line old hit_way w l :: canonical_touch_loop old hit_way (w + 1) ls

/-- The canonical LRU stack update of a set on a hit at `hit_way`. -/
def canonical_touch (set : CacheSet) (hit_way : Nat) : CacheSet :=
  let old := (set.lines.getD hit_way default).lru
  { set with lines := canonical_touch_loop old hit_way 0 set.lines }

/-- The access of a cache that keeps a canonical LRU stack: `cache_access`
with `canonical_touch` in place of `lru_touch` on the hit path. -/
def canonical_access (c : Cache) (addr : Nat) : Nat × Cache :=
  let accesses := (c.accesses + 1) % 18446744073709551616
  let index := set_index c addr
  let tag := addr_tag c addr
  let set := c.sets.getD index default
  match find_hit tag 0 set.lines with
  | some w =>
    (1, { c with
          accesses := accesses
          hits := (c.hits + 1) % 18446744073709551616
          sets := c.sets.set index (canonical_touch set w) })
  | none =>
    (0, { c with
          accesses := accesses
          misses := (c.misses + 1) % 18446744073709551616
          sets := c.sets.set index (install set (lru_victim set) tag) })

/-- The state after a sequence of accesses under the canonical policy. -/
def canonical_run (c : Cache) : List Nat → Cache
  | [] => c
  | a :: as => canonical_run (canonical_access c a).2 as

/-- Two states order the lines of every set the same way by recency. -/
def same_recency_order (c1 c2 : Cache) : Prop :=
  ∀ (i u1 u2 : Nat),
    (((c1.sets.getD i default).lines.getD u1 default).lru <
      ((c1.sets.getD i default).lines.getD u2 default).lru) ↔
    (((c2.sets.getD i default).lines.getD u1 default).lru <
      ((c2.sets.getD i default).lines.getD u2 default).lru)

/-- The cache that `cache_create 64 16 1` builds: four sets of one line. -/
def cache_64_16_1 : Cache :=
  { sets := [{ lines := [{ valid := false, tag := 0, lru := 0 }], ways := 1 },
             { lines := [{ valid := false, tag := 0, lru := 0 }], ways := 1 },
             { lines := [{ valid := false, tag := 0, lru := 0 }], ways := 1 },
             { lines := [{ valid := false, tag := 0, lru := 0 }], ways := 1 }]
    num_sets := 4, ways := 1, block_size := 16, cache_size := 64,
    index_mask := 3, index_shift := 4, offset_mask := 15,
    accesses := 0, hits := 0, misses := 0 }

/-! ## Powers of two and accepted configurations -/

theorem and_pred_eq_zero_imp (x : Nat) : x ≠ 0 → x &&& (x - 1) = 0 → ∃ k, x = 2 ^ k := by
  induction x using Nat.strong_induction_on with
  | _ x ih =>
    intro hx h
    by_cases h1 : x = 1
    · exact ⟨0, by simp [h1]⟩
    · have hdiv := congrArg (· / 2) h
      have hmod := congrArg (· % 2) h
      simp only [Nat.and_div_two, Nat.zero_div] at hdiv
      rcases Nat.mod_two_eq_zero_or_one x with hpar | hpar
      · -- even
        have hx2 : (x - 1) / 2 = x / 2 - 1 := by omega
        rw [hx2] at hdiv
        obtain ⟨k, hk⟩ := ih (x / 2) (by omega) (by omega) hdiv
        exact ⟨k + 1, by rw [pow_succ]; omega⟩
      · -- odd, x ≥ 3
        have hx2 : (x - 1) / 2 = x / 2 := by omega
        rw [hx2, Nat.and_self] at hdiv
        omega

theorem is_power_of_two_iff (x : Nat) : is_power_of_two x = true ↔ ∃ k, x = 2 ^ k := by
  constructor
  · intro h
    simp only [is_power_of_two, Bool.and_eq_true, bne_iff_ne, ne_eq, beq_iff_eq] at h
    exact and_pred_eq_zero_imp x h.1 h.2
  · rintro ⟨k, rfl⟩
    have hpos : 0 < 2 ^ k := Nat.two_pow_pos k
    simp only [is_power_of_two, Bool.and_eq_true, bne_iff_ne, ne_eq, beq_iff_eq]
    refine ⟨by omega, ?_⟩
    rw [Nat.and_pow_two_sub_one_eq_mod, Nat.mod_self]

theorem shift_count_two_pow (fuel k : Nat) (h : k ≤ fuel) : shift_count fuel (2 ^ k) = k := by
  induction fuel generalizing k with
  | zero => simp [Nat.le_zero.mp h, shift_count]
  | succ n ih =>
    cases k with
    | zero => simp [shift_count]
    | succ k =>
      have hpos : 0 < 2 ^ k := Nat.two_pow_pos k
      have h2 : 2 ^ (k + 1) >>> 1 = 2 ^ k := by
        rw [Nat.shiftRight_eq_div_pow, pow_succ]; simp
      have hgt : 2 ^ (k + 1) > 1 := by rw [pow_succ]; omega
      simp only [shift_count, hgt, if_true, h2]
      rw [ih k (by omega)]

theorem mask_two_pow (n : Nat) (h : n < 32) :
    ((1 <<< n) % 4294967296 + 4294967296 - 1) % 4294967296 = 2 ^ n - 1 := by
  have hlt : 2 ^ n < 2 ^ 32 := Nat.pow_lt_pow_right (by decide) h
  have hpos : 0 < 2 ^ n := Nat.two_pow_pos n
  rw [Nat.one_shiftLeft]
  norm_num at hlt
  omega

/-- What an accepted configuration looks like. -/
theorem cache_create_ok (cs bs w : Nat) (c : Cache) (hcs : cs < 4294967296)
    (h : cache_create cs bs w = .ok c) :
    ∃ a b n, cs = 2 ^ a ∧ bs = 2 ^ b ∧ b ≤ a ∧ a < 32 ∧ n ≤ a ∧ w ≠ 0 ∧
      2 ^ n * ((bs * w) % 4294967296) = cs ∧
      c = { sets := List.replicate (2 ^ n)
              { lines := List.replicate w { valid := false, tag := 0, lru := 0 }, ways := w }
            num_sets := 2 ^ n, ways := w, block_size := bs, cache_size := cs,
            index_mask := 2 ^ n - 1, index_shift := b, offset_mask := 2 ^ b - 1,
            accesses := 0, hits := 0, misses := 0 } := by
  unfold cache_create at h
  split_ifs at h with h1 h2 h3 h4 h5 h6
  simp only [Bool.not_eq_true, Bool.not_eq_false_eq_eq_true, Bool.not_eq_true',
    Bool.not_eq_false'] at h1 h2
  obtain ⟨a, ha⟩ := (is_power_of_two_iff cs).1 (by simpa using h1)
  obtain ⟨b, hb⟩ := (is_power_of_two_iff bs).1 (by simpa using h2)
  simp only [beq_iff_eq, bne_iff_ne, ne_eq, not_not] at h4 h5 h6
  have hdvd : (bs * w) % 4294967296 ∣ 2 ^ a := ha ▸ Nat.dvd_of_mod_eq_zero h6
  obtain ⟨j, hj, hjd⟩ := (Nat.dvd_prime_pow Nat.prime_two).1 hdvd
  have ha32 : a < 32 := by
    have : 2 ^ a < 2 ^ 32 := by rw [← ha]; norm_num; exact hcs
    exact (Nat.pow_lt_pow_iff_right (by decide)).1 this
  have hba : b ≤ a := by
    have : 2 ^ b ≤ 2 ^ a := by rw [← ha, ← hb]; omega
    exact (Nat.pow_le_pow_iff_right (by decide)).1 this
  have hns : cs / ((bs * w) % 4294967296) = 2 ^ (a - j) := by
    rw [hjd, ha]; exact Nat.pow_div hj (by decide)
  have hb32 : b < 32 := by omega
  have hn32 : a - j < 32 := by omega
  refine ⟨a, b, a - j, ha, hb, hba, ha32, Nat.sub_le _ _, h4, ?_, ?_⟩
  · rw [hjd, ← pow_add, ha]; congr 1; omega
  · have hc := (Except.ok.inj h).symm
    rw [hc]
    simp only [cache_compute_masks, hns]
    rw [hb, shift_count_two_pow 32 b (by omega), shift_count_two_pow 32 (a - j) (by omega),
      mask_two_pow b hb32, mask_two_pow (a - j) hn32]

/-! ## The loops, line by line -/

theorem length_lru_touch_loop (old h : Nat) (ls : List CacheLine) (w : Nat) :
    (lru_touch_loop old h w ls).length = ls.length := by
  induction ls generalizing w with
  | nil => rfl
  | cons l ls ih => simp [lru_touch_loop, ih]

theorem getElem?_lru_touch_loop (old h : Nat) (ls : List CacheLine) (w u : Nat) :
    (lru_touch_loop old h w ls)[u]? = (ls[u]?).map (touch_line old h (w + u)) := by
  induction ls generalizing w u with
  | nil => simp [lru_touch_loop]
  | cons l ls ih =>
    cases u with
    | zero => simp [lru_touch_loop]
    | succ u =>
      simp only [lru_touch_loop, List.getElem?_cons_succ, ih]
      rw [show w + 1 + u = w + (u + 1) by omega]

theorem length_miss_age_loop (v : Nat) (ls : List CacheLine) (w : Nat) :
    (miss_age_loop v w ls).length = ls.length := by
  induction ls generalizing w with
  | nil => rfl
  | cons l ls ih => simp [miss_age_loop, ih]

theorem getElem?_miss_age_loop (v : Nat) (ls : List CacheLine) (w u : Nat) :
    (miss_age_loop v w ls)[u]? = (ls[u]?).map (age_line v (w + u)) := by
  induction ls generalizing w u with
  | nil => simp [miss_age_loop]
  | cons l ls ih =>
    cases u with
    | zero => simp [miss_age_loop]
    | succ u =>
      simp only [miss_age_loop, List.getElem?_cons_succ, ih]
      rw [show w + 1 + u = w + (u + 1) by omega]

theorem find_hit_some (tag : Nat) (ls : List CacheLine) (w j : Nat)
    (h : find_hit tag w ls = some j) :
    ∃ u l, j = w + u ∧ ls[u]? = some l ∧ l.valid = true ∧ l.tag = tag ∧
      ∀ (u2 : Nat) (l2 : CacheLine), u2 < u → ls[u2]? = some l2 → ¬ (l2.valid = true ∧ l2.tag = tag) := by
  induction ls generalizing w with
  | nil => simp [find_hit] at h
  | cons l ls ih =>
    simp only [find_hit] at h
    split_ifs at h with hc
    · simp only [Bool.and_eq_true, beq_iff_eq] at hc
      refine ⟨0, l, ?_, by simp, hc.1, hc.2, ?_⟩
      · simp at h; omega
      · intro u2 l2 hu2; omega
    · obtain ⟨u, l1, hj, hget, hv, ht, hfirst⟩ := ih (w + 1) h
      refine ⟨u + 1, l1, by omega, by simpa using hget, hv, ht, ?_⟩
      intro u2 l2 hu2 hget2
      cases u2 with
      | zero =>
        simp at hget2
        subst hget2
        simpa using hc
      | succ u2 =>
        exact hfirst u2 l2 (by omega) (by simpa using hget2)

theorem find_hit_none (tag : Nat) (ls : List CacheLine) (w : Nat)
    (h : find_hit tag w ls = none) :
    ∀ (u : Nat) (l : CacheLine), ls[u]? = some l → ¬ (l.valid = true ∧ l.tag = tag) := by
  induction ls generalizing w with
  | nil => intro u l hget; simp at hget
  | cons l0 ls ih =>
    simp only [find_hit] at h
    split_ifs at h with hc
    intro u l hget
    cases u with
    | zero =>
      simp at hget
      subst hget
      simpa using hc
    | succ u => exact ih (w + 1) h u l (by simpa using hget)

theorem find_hit_isSome (tag : Nat) (ls : List CacheLine) (w u : Nat) (l : CacheLine)
    (hget : ls[u]? = some l) (hv : l.valid = true) (ht : l.tag = tag) :
    ∃ j, find_hit tag w ls = some j := by
  cases hf : find_hit tag w ls with
  | some j => exact ⟨j, rfl⟩
  | none => exact absurd ⟨hv, ht⟩ (find_hit_none tag ls w hf u l hget)

theorem first_invalid_some (ls : List CacheLine) (w j : Nat)
    (h : first_invalid w ls = some j) :
    ∃ u l, j = w + u ∧ ls[u]? = some l ∧ l.valid = false ∧
      ∀ (u2 : Nat) (l2 : CacheLine), u2 < u → ls[u2]? = some l2 → l2.valid = true := by
  induction ls generalizing w with
  | nil => simp [first_invalid] at h
  | cons l ls ih =>
    simp only [first_invalid] at h
    split_ifs at h with hc
    · refine ⟨0, l, ?_, by simp, by simpa using hc, ?_⟩
      · simp at h; omega
      · intro u2 l2 hu2; omega
    · obtain ⟨u, l1, hj, hget, hv, hfirst⟩ := ih (w + 1) h
      refine ⟨u + 1, l1, by omega, by simpa using hget, hv, ?_⟩
      intro u2 l2 hu2 hget2
      cases u2 with
      | zero =>
        simp at hget2
        subst hget2
        simpa using hc
      | succ u2 =>
        exact hfirst u2 l2 (by omega) (by simpa using hget2)

theorem first_invalid_none (ls : List CacheLine) (w : Nat)
    (h : first_invalid w ls = none) :
    ∀ (u : Nat) (l : CacheLine), ls[u]? = some l → l.valid = true := by
  induction ls generalizing w with
  | nil => intro u l hget; simp at hget
  | cons l0 ls ih =>
    simp only [first_invalid] at h
    split_ifs at h with hc
    intro u l hget
    cases u with
    | zero =>
      simp at hget
      subst hget
      simpa using hc
    | succ u => exact ih (w + 1) h u l (by simpa using hget)

theorem first_invalid_isSome (ls : List CacheLine) (w u : Nat) (l : CacheLine)
    (hget : ls[u]? = some l) (hv : l.valid = false) :
    ∃ j, first_invalid w ls = some j := by
  cases hf : first_invalid w ls with
  | some j => exact ⟨j, rfl⟩
  | none =>
    have := first_invalid_none ls w hf u l hget
    simp [hv] at this

/-- The scan for the largest counter returns either the incoming candidate,
when no later line beats it, or a later line that beats the candidate and is
not beaten by any line of the scanned part. -/
theorem max_lru_loop_spec (ls : List CacheLine) (w victim vlru : Nat) :
    (max_lru_loop ls w victim vlru = victim ∧ ∀ (u : Nat) (l : CacheLine), ls[u]? = some l → l.lru ≤ vlru) ∨
    (∃ u l, max_lru_loop ls w victim vlru = w + u ∧ ls[u]? = some l ∧ vlru < l.lru ∧
      ∀ (u2 : Nat) (l2 : CacheLine), ls[u2]? = some l2 → l2.lru ≤ l.lru) := by
  induction ls generalizing w victim vlru with
  | nil => left; simp [max_lru_loop]
  | cons l0 ls ih =>
    simp only [max_lru_loop]
    split_ifs with hc
    · right
      rcases ih (w + 1) w l0.lru with ⟨hr, hall⟩ | ⟨u, l, hr, hget, hlt, hall⟩
      · refine ⟨0, l0, by simpa using hr, by simp, hc, ?_⟩
        intro u2 l2 hget2
        cases u2 with
        | zero => simp at hget2; subst hget2; exact Nat.le_refl _
        | succ u2 => exact hall u2 l2 (by simpa using hget2)
      · refine ⟨u + 1, l, by rw [hr]; omega, by simpa using hget, by omega, ?_⟩
        intro u2 l2 hget2
        cases u2 with
        | zero => simp at hget2; subst hget2; omega
        | succ u2 => exact hall u2 l2 (by simpa using hget2)
    · rcases ih (w + 1) victim vlru with ⟨hr, hall⟩ | ⟨u, l, hr, hget, hlt, hall⟩
      · left
        refine ⟨hr, ?_⟩
        intro u2 l2 hget2
        cases u2 with
        | zero => simp at hget2; subst hget2; omega
        | succ u2 => exact hall u2 l2 (by simpa using hget2)
      · right
        refine ⟨u + 1, l, by rw [hr]; omega, by simpa using hget, hlt, ?_⟩
        intro u2 l2 hget2
        cases u2 with
        | zero => simp at hget2; subst hget2; omega
        | succ u2 => exact hall u2 l2 (by simpa using hget2)

theorem getD_of_getElem? (ls : List CacheLine) (u : Nat) (l : CacheLine) (h : ls[u]? = some l) :
    ls.getD u default = l := by
  simp [List.getD_eq_getElem?_getD, h]

theorem length_install (set : CacheSet) (v tag : Nat) :
    (install set v tag).lines.length = set.lines.length := by
  simp [install, length_miss_age_loop]

theorem getElem?_install (set : CacheSet) (v tag u : Nat) (hv : v < set.lines.length) :
    (install set v tag).lines[u]? = (set.lines[u]?).map (install_line v tag u) := by
  obtain ⟨lv, hlv⟩ : ∃ lv, set.lines[v]? = some lv := ⟨_, List.getElem?_eq_getElem hv⟩
  by_cases huv : u = v
  · subst huv
    simp only [install, List.getD_eq_getElem?_getD, getElem?_miss_age_loop, List.getElem?_set,
      List.length_set, length_miss_age_loop, hv, hlv, if_true, Option.map_some', Option.getD_some,
      Nat.zero_add, install_line, age_line]
    simp
  · have huv2 : ¬ v = u := fun h => huv h.symm
    simp only [install, List.getD_eq_getElem?_getD, getElem?_miss_age_loop, List.getElem?_set,
      huv2, if_false, Nat.zero_add]
    cases hu : set.lines[u]? with
    | none => simp
    | some l =>
      simp only [Option.map_some', install_line, age_line, huv, if_false]
      cases hval : l.valid <;> simp [huv]

/-! ## Invariant of one set -/

/-- Two valid lines of a set with equal counters are the same line. -/
theorem SetInv.lru_inj {lines : List CacheLine} {τ : Nat → Nat} {t k : Nat}
    (inv : SetInv lines τ t k) (u1 u2 : Nat) (l1 l2 : CacheLine)
    (h1 : lines[u1]? = some l1) (h2 : lines[u2]? = some l2) (hu1 : u1 < k) (hu2 : u2 < k)
    (heq : l1.lru = l2.lru) : u1 = u2 := by
  have ha := inv.order u1 u2 l1 l2 h1 h2 hu1 hu2
  have hb := inv.order u2 u1 l2 l1 h2 h1 hu2 hu1
  apply inv.time_inj u1 u2 hu1 hu2
  omega

theorem SetInv.mono {lines : List CacheLine} {τ : Nat → Nat} {t k : Nat}
    (inv : SetInv lines τ t k) (t2 : Nat) (ht : t ≤ t2) : SetInv lines τ t2 k where
  pos := inv.pos
  small := inv.small
  le := inv.le
  valid_iff := inv.valid_iff
  fresh := inv.fresh
  bound := fun u l h hu => by
    have := inv.bound u l h hu
    omega
  order := inv.order
  time_inj := inv.time_inj
  tag_inj := inv.tag_inj

/-- The effect of `lru_touch` on a line of a set that satisfies the invariant. -/
theorem touch_line_eq {lines : List CacheLine} {τ : Nat → Nat} {t k : Nat}
    (inv : SetInv lines τ t k) (h : Nat) (lh : CacheLine) (hget : lines[h]? = some lh)
    (hk : h < k) (u : Nat) (l : CacheLine) (hu : lines[u]? = some l) :
    (touch_line lh.lru h u l).valid = l.valid ∧ (touch_line lh.lru h u l).tag = l.tag ∧
    (u = h → (touch_line lh.lru h u l).lru = 0) ∧
    (u ≠ h → u < k → l.lru ≠ lh.lru) ∧
    (u ≠ h → u < k → l.lru < lh.lru → (touch_line lh.lru h u l).lru = l.lru + 1) ∧
    (u ≠ h → u < k → lh.lru < l.lru → (touch_line lh.lru h u l).lru = l.lru) ∧
    (k ≤ u → (touch_line lh.lru h u l).lru = 0) := by
  have hbh := inv.bound h lh hget hk
  have hsmall := inv.small
  have hle := inv.le
  by_cases huh : u = h
  · subst huh
    simp [touch_line]
  · have hne : (u == h) = false := by simpa using huh
    by_cases huk : u < k
    · have hv : l.valid = true := (inv.valid_iff u l hu).2 huk
      have hdist : l.lru ≠ lh.lru := fun he => huh (inv.lru_inj u h l lh hu hget huk hk he)
      by_cases hlt : l.lru ≤ lh.lru
      · have hmod : (l.lru + 1) % 4294967296 = l.lru + 1 := Nat.mod_eq_of_lt (by omega)
        simp [touch_line, hne, hv, hlt, hmod, huh]
        omega
      · simp [touch_line, hne, hv, hlt, huh]
        omega
    · have hv : l.valid = false := by
        have := inv.valid_iff u l hu
        cases hval : l.valid
        · rfl
        · exact absurd (this.1 hval) huk
      have hz := inv.fresh u l hu (by omega)
      simp [touch_line, hne, hv, huh, hz]
      omega

/-- A hit keeps the invariant of the set: the hit line gets the new time. -/
theorem SetInv.touch {lines : List CacheLine} {τ : Nat → Nat} {t k : Nat}
    (inv : SetInv lines τ t k) (h : Nat) (lh : CacheLine) (hget : lines[h]? = some lh)
    (hk : h < k) :
    SetInv (lru_touch_loop lh.lru h 0 lines) (fun u => if u = h then t + 1 else τ u) (t + 1) k := by
  have hback : ∀ (u : Nat) (l2 : CacheLine), (lru_touch_loop lh.lru h 0 lines)[u]? = some l2 →
      ∃ l, lines[u]? = some l ∧ l2 = touch_line lh.lru h u l := by
    intro u l2 hl2
    rw [getElem?_lru_touch_loop, Nat.zero_add] at hl2
    cases hl : lines[u]? with
    | none => simp [hl] at hl2
    | some l => exact ⟨l, rfl, by simpa [hl] using hl2.symm⟩
  refine ⟨?_, ?_, ?_, ?_, ?_, ?_, ?_, ?_, ?_⟩
  · rw [length_lru_touch_loop]; exact inv.pos
  · rw [length_lru_touch_loop]; exact inv.small
  · rw [length_lru_touch_loop]; exact inv.le
  · intro u l2 hl2
    obtain ⟨l, hl, rfl⟩ := hback u l2 hl2
    rw [(touch_line_eq inv h lh hget hk u l hl).1]
    exact inv.valid_iff u l hl
  · intro u l2 hl2 hku
    obtain ⟨l, hl, rfl⟩ := hback u l2 hl2
    exact (touch_line_eq inv h lh hget hk u l hl).2.2.2.2.2.2 hku
  · intro u l2 hl2 huk
    obtain ⟨l, hl, rfl⟩ := hback u l2 hl2
    obtain ⟨-, -, e0, ene, elt, egt, -⟩ := touch_line_eq inv h lh hget hk u l hl
    have hb := inv.bound u l hl huk
    have hbh := inv.bound h lh hget hk
    by_cases huh : u = h
    · rw [if_pos huh, e0 huh]; omega
    · rw [if_neg huh]
      have := ene huh huk
      rcases Nat.lt_or_gt_of_ne this with hlt | hgt
      · rw [elt huh huk hlt]; omega
      · rw [egt huh huk hgt]; omega
  · intro u1 u2 l1' l2' h1 h2 hu1 hu2
    obtain ⟨l1, hl1, rfl⟩ := hback u1 l1' h1
    obtain ⟨l2, hl2, rfl⟩ := hback u2 l2' h2
    obtain ⟨-, -, a0, ane, alt, agt, -⟩ := touch_line_eq inv h lh hget hk u1 l1 hl1
    obtain ⟨-, -, b0, bne, blt, bgt, -⟩ := touch_line_eq inv h lh hget hk u2 l2 hl2
    have hb1 := inv.bound u1 l1 hl1 hu1
    have hb2 := inv.bound u2 l2 hl2 hu2
    have hord := inv.order u1 u2 l1 l2 hl1 hl2 hu1 hu2
    by_cases h1h : u1 = h <;> by_cases h2h : u2 = h
    · rw [if_pos h1h, if_pos h2h, a0 h1h, b0 h2h]; omega
    · rw [if_pos h1h, if_neg h2h, a0 h1h]
      have := bne h2h hu2
      rcases Nat.lt_or_gt_of_ne this with hlt | hgt
      · rw [blt h2h hu2 hlt]; omega
      · rw [bgt h2h hu2 hgt]; omega
    · rw [if_neg h1h, if_pos h2h, b0 h2h]; omega
    · rw [if_neg h1h, if_neg h2h]
      have n1 := ane h1h hu1
      have n2 := bne h2h hu2
      rcases Nat.lt_or_gt_of_ne n1 with hlt1 | hgt1 <;>
        rcases Nat.lt_or_gt_of_ne n2 with hlt2 | hgt2
      · rw [alt h1h hu1 hlt1, blt h2h hu2 hlt2]; omega
      · rw [alt h1h hu1 hlt1, bgt h2h hu2 hgt2]; omega
      · rw [agt h1h hu1 hgt1, blt h2h hu2 hlt2]; omega
      · rw [agt h1h hu1 hgt1, bgt h2h hu2 hgt2]; omega
  · intro u1 u2 hu1 hu2 heq
    have hlen := inv.le
    obtain ⟨l1, hl1⟩ : ∃ l1, lines[u1]? = some l1 := ⟨_, List.getElem?_eq_getElem (by omega)⟩
    obtain ⟨l2, hl2⟩ : ∃ l2, lines[u2]? = some l2 := ⟨_, List.getElem?_eq_getElem (by omega)⟩
    have hb1 := inv.bound u1 l1 hl1 hu1
    have hb2 := inv.bound u2 l2 hl2 hu2
    beta_reduce at heq
    by_cases h1h : u1 = h <;> by_cases h2h : u2 = h
    · omega
    · rw [if_pos h1h, if_neg h2h] at heq; omega
    · rw [if_neg h1h, if_pos h2h] at heq; omega
    · rw [if_neg h1h, if_neg h2h] at heq
      exact inv.time_inj u1 u2 hu1 hu2 heq
  · intro u1 u2 l1' l2' h1 h2 hu1 hu2 heq
    obtain ⟨l1, hl1, rfl⟩ := hback u1 l1' h1
    obtain ⟨l2, hl2, rfl⟩ := hback u2 l2' h2
    rw [(touch_line_eq inv h lh hget hk u1 l1 hl1).2.1,
      (touch_line_eq inv h lh hget hk u2 l2 hl2).2.1] at heq
    exact inv.tag_inj u1 u2 l1 l2 hl1 hl2 hu1 hu2 heq

/-- The victim chosen in a set that satisfies the invariant: the first empty
line while there is one, else a line whose counter no line exceeds. -/
theorem lru_victim_spec {set : CacheSet} {τ : Nat → Nat} {t k : Nat}
    (inv : SetInv set.lines τ t k) :
    lru_victim set < set.lines.length ∧
    ((k < set.lines.length ∧ lru_victim set = k) ∨
     (k = set.lines.length ∧ ∀ (u : Nat) (l lv : CacheLine), set.lines[u]? = some l →
        set.lines[lru_victim set]? = some lv → l.lru ≤ lv.lru)) := by
  have hpos := inv.pos
  have hle := inv.le
  unfold lru_victim
  cases hfi : first_invalid 0 set.lines with
  | some j =>
    obtain ⟨u, l, hj, hget, hval, hfirst⟩ := first_invalid_some set.lines 0 j hfi
    have hulen : u < set.lines.length := by
      by_contra hcon
      rw [List.getElem?_eq_none (by omega)] at hget
      exact absurd hget (by simp)
    have hku : k ≤ u := by
      by_contra hcon
      have := (inv.valid_iff u l hget).2 (by omega)
      rw [hval] at this
      exact absurd this (by simp)
    have huk : u = k := by
      by_contra hcon
      have hklt : k < u := by omega
      obtain ⟨lk, hlk⟩ : ∃ lk, set.lines[k]? = some lk :=
        ⟨_, List.getElem?_eq_getElem (by omega)⟩
      have hv := hfirst k lk hklt hlk
      have := (inv.valid_iff k lk hlk).1 hv
      omega
    simp only
    refine ⟨by omega, Or.inl ⟨by omega, by omega⟩⟩
  | none =>
    have hall := first_invalid_none set.lines 0 hfi
    have hk : k = set.lines.length := by
      obtain ⟨ll, hll⟩ : ∃ ll, set.lines[set.lines.length - 1]? = some ll :=
        ⟨_, List.getElem?_eq_getElem (by omega)⟩
      have := (inv.valid_iff _ ll hll).1 (hall _ ll hll)
      omega
    simp only
    cases hlines : set.lines with
    | nil => rw [hlines] at hpos; simp at hpos
    | cons l0 ls =>
      simp only
      rcases max_lru_loop_spec ls 1 0 l0.lru with ⟨hr, hmax⟩ | ⟨u, l, hr, hget, hlt, hmax⟩
      · rw [hr]
        refine ⟨by simp, Or.inr ⟨by rw [hk, hlines], ?_⟩⟩
        intro u l lv hu hv
        simp at hv
        subst hv
        cases u with
        | zero => simp at hu; subst hu; exact Nat.le_refl _
        | succ u => exact hmax u l (by simpa using hu)
      · rw [hr]
        have hulen : u < ls.length := by
          by_contra hcon
          rw [List.getElem?_eq_none (by omega)] at hget
          exact absurd hget (by simp)
        refine ⟨by simp; omega, Or.inr ⟨by rw [hk, hlines], ?_⟩⟩
        intro u2 l2 lv hu2 hv
        rw [show 1 + u = u + 1 by omega] at hv
        simp only [List.getElem?_cons_succ] at hv
        rw [hget] at hv
        have hv2 : l = lv := by simpa using hv
        subst hv2
        cases u2 with
        | zero => simp at hu2; subst hu2; omega
        | succ u2 => exact hmax u2 l2 (by simpa using hu2)

/-- The miss path keeps the invariant of the set, for any victim `v` that
extends the valid lines to the first `k2` lines and whose choice keeps the
aged counters below `k2`. -/
theorem SetInv.install_gen {lines lines2 : List CacheLine} {τ : Nat → Nat} {t k : Nat}
    (inv : SetInv lines τ t k) (v k2 tag : Nat)
    (hk2 : k2 ≤ lines.length)
    (hkv : ∀ (u : Nat), u < k2 ↔ (u < k ∨ u = v))
    (hage : ∀ (u : Nat) (l : CacheLine), lines[u]? = some l → u < k → u ≠ v → l.lru + 1 < k2)
    (hnotag : ∀ (u : Nat) (l : CacheLine), lines[u]? = some l → ¬ (l.valid = true ∧ l.tag = tag))
    (hlen : lines2.length = lines.length)
    (hget2 : ∀ (u : Nat), lines2[u]? = (lines[u]?).map (install_line v tag u)) :
    SetInv lines2 (fun u => if u = v then t + 1 else τ u) (t + 1) k2 := by
  have hsmall := inv.small
  have hback : ∀ (u : Nat) (l2 : CacheLine), lines2[u]? = some l2 →
      ∃ l, lines[u]? = some l ∧ l2 = install_line v tag u l := by
    intro u l2 hl2
    rw [hget2] at hl2
    cases hl : lines[u]? with
    | none => simp [hl] at hl2
    | some l => exact ⟨l, rfl, by simpa [hl] using hl2.symm⟩
  have hvk2 : v < k2 := (hkv v).2 (Or.inr rfl)
  -- the three shapes of the written line
  have hself : ∀ (l : CacheLine), install_line v tag v l = { valid := true, tag := tag, lru := 0 } := by
    intro l; simp [install_line]
  have hold : ∀ (u : Nat) (l : CacheLine), lines[u]? = some l → u < k → u ≠ v →
      install_line v tag u l = { l with lru := l.lru + 1 } := by
    intro u l hl huk huv
    have hv : l.valid = true := (inv.valid_iff u l hl).2 huk
    have := hage u l hl huk huv
    have hmod : (l.lru + 1) % 4294967296 = l.lru + 1 := Nat.mod_eq_of_lt (by omega)
    simp [install_line, huv, hv, hmod]
  have hinv : ∀ (u : Nat) (l : CacheLine), lines[u]? = some l → ¬ u < k → u ≠ v →
      install_line v tag u l = l := by
    intro u l hl huk huv
    have hv : l.valid = false := by
      cases hval : l.valid
      · rfl
      · exact absurd ((inv.valid_iff u l hl).1 hval) huk
    simp [install_line, huv, hv]
  refine ⟨?_, ?_, ?_, ?_, ?_, ?_, ?_, ?_, ?_⟩
  · rw [hlen]; exact inv.pos
  · rw [hlen]; exact inv.small
  · rw [hlen]; exact hk2
  · intro u l2 hl2
    obtain ⟨l, hl, rfl⟩ := hback u l2 hl2
    by_cases huv : u = v
    · subst huv; rw [hself]; simp [hvk2]
    · by_cases huk : u < k
      · rw [hold u l hl huk huv]
        have := (inv.valid_iff u l hl).2 huk
        have := (hkv u).2 (Or.inl huk)
        simp [*]
      · rw [hinv u l hl huk huv]
        have h1 := inv.valid_iff u l hl
        have h2 := hkv u
        constructor
        · intro hv; exact absurd (h1.1 hv) huk
        · intro hu; rcases h2.1 hu with h3 | h3
          · exact absurd h3 huk
          · exact absurd h3 huv
  · intro u l2 hl2 hku
    obtain ⟨l, hl, rfl⟩ := hback u l2 hl2
    have huv : u ≠ v := by omega
    have huk : ¬ u < k := fun h => by have := (hkv u).2 (Or.inl h); omega
    rw [hinv u l hl huk huv]
    exact inv.fresh u l hl (by omega)
  · intro u l2 hl2 huk2
    obtain ⟨l, hl, rfl⟩ := hback u l2 hl2
    by_cases huv : u = v
    · subst huv; rw [hself, if_pos rfl]; simp; omega
    · have huk : u < k := by rcases (hkv u).1 huk2 with h | h; exact h; exact absurd h huv
      rw [hold u l hl huk huv, if_neg huv]
      have := hage u l hl huk huv
      have := inv.bound u l hl huk
      simp; omega
  · intro u1 u2 l1b l2b h1 h2 hu1 hu2
    obtain ⟨l1, hl1, rfl⟩ := hback u1 l1b h1
    obtain ⟨l2, hl2, rfl⟩ := hback u2 l2b h2
    by_cases h1v : u1 = v <;> by_cases h2v : u2 = v
    · rw [if_pos h1v, if_pos h2v, h1v, h2v, hself, hself]; simp
    · have huk : u2 < k := by rcases (hkv u2).1 hu2 with h | h; exact h; exact absurd h h2v
      have := inv.bound u2 l2 hl2 huk
      rw [if_pos h1v, if_neg h2v, h1v, hself, hold u2 l2 hl2 huk h2v]
      simp; omega
    · have huk : u1 < k := by rcases (hkv u1).1 hu1 with h | h; exact h; exact absurd h h1v
      have := inv.bound u1 l1 hl1 huk
      rw [if_neg h1v, if_pos h2v, h2v, hself, hold u1 l1 hl1 huk h1v]
      simp; omega
    · have huk1 : u1 < k := by rcases (hkv u1).1 hu1 with h | h; exact h; exact absurd h h1v
      have huk2 : u2 < k := by rcases (hkv u2).1 hu2 with h | h; exact h; exact absurd h h2v
      have := inv.order u1 u2 l1 l2 hl1 hl2 huk1 huk2
      rw [if_neg h1v, if_neg h2v, hold u1 l1 hl1 huk1 h1v, hold u2 l2 hl2 huk2 h2v]
      simp; omega
  · intro u1 u2 hu1 hu2 heq
    beta_reduce at heq
    have hbt : ∀ (u : Nat), u < k → 0 < τ u ∧ τ u ≤ t := by
      intro u hu
      have hle := inv.le
      obtain ⟨l, hl⟩ : ∃ l, lines[u]? = some l := ⟨_, List.getElem?_eq_getElem (by omega)⟩
      exact (inv.bound u l hl hu).2
    by_cases h1v : u1 = v <;> by_cases h2v : u2 = v
    · omega
    · have huk : u2 < k := by rcases (hkv u2).1 hu2 with h | h; exact h; exact absurd h h2v
      have := hbt u2 huk
      rw [if_pos h1v, if_neg h2v] at heq; omega
    · have huk : u1 < k := by rcases (hkv u1).1 hu1 with h | h; exact h; exact absurd h h1v
      have := hbt u1 huk
      rw [if_neg h1v, if_pos h2v] at heq; omega
    · have huk1 : u1 < k := by rcases (hkv u1).1 hu1 with h | h; exact h; exact absurd h h1v
      have huk2 : u2 < k := by rcases (hkv u2).1 hu2 with h | h; exact h; exact absurd h h2v
      rw [if_neg h1v, if_neg h2v] at heq
      exact inv.time_inj u1 u2 huk1 huk2 heq
  · intro u1 u2 l1b l2b h1 h2 hu1 hu2 heq
    obtain ⟨l1, hl1, rfl⟩ := hback u1 l1b h1
    obtain ⟨l2, hl2, rfl⟩ := hback u2 l2b h2
    by_cases h1v : u1 = v <;> by_cases h2v : u2 = v
    · omega
    · have huk : u2 < k := by rcases (hkv u2).1 hu2 with h | h; exact h; exact absurd h h2v
      rw [h1v, hself, hold u2 l2 hl2 huk h2v] at heq
      exact absurd ⟨(inv.valid_iff u2 l2 hl2).2 huk, heq.symm⟩ (hnotag u2 l2 hl2)
    · have huk : u1 < k := by rcases (hkv u1).1 hu1 with h | h; exact h; exact absurd h h1v
      rw [h2v, hself, hold u1 l1 hl1 huk h1v] at heq
      exact absurd ⟨(inv.valid_iff u1 l1 hl1).2 huk, heq⟩ (hnotag u1 l1 hl1)
    · have huk1 : u1 < k := by rcases (hkv u1).1 hu1 with h | h; exact h; exact absurd h h1v
      have huk2 : u2 < k := by rcases (hkv u2).1 hu2 with h | h; exact h; exact absurd h h2v
      rw [hold u1 l1 hl1 huk1 h1v, hold u2 l2 hl2 huk2 h2v] at heq
      exact inv.tag_inj u1 u2 l1 l2 hl1 hl2 huk1 huk2 heq

/-! ## Invariant of the cache -/

/-- A miss keeps the invariant of the set: the victim gets the new time. -/
theorem SetInv.miss {set : CacheSet} {τ : Nat → Nat} {t k : Nat}
    (inv : SetInv set.lines τ t k) (tag : Nat)
    (hmiss : find_hit tag 0 set.lines = none) :
    ∃ k2, SetInv (install set (lru_victim set) tag).lines
      (fun u => if u = lru_victim set then t + 1 else τ u) (t + 1) k2 := by
  obtain ⟨hv, hcase⟩ := lru_victim_spec inv
  have hnotag := find_hit_none tag set.lines 0 hmiss
  have hle := inv.le
  rcases hcase with ⟨hk, hvk⟩ | ⟨hk, hmax⟩
  · refine ⟨k + 1, inv.install_gen (lru_victim set) (k + 1) tag (by omega) ?_ ?_ hnotag
      (length_install _ _ _) (fun u => getElem?_install set _ tag u hv)⟩
    · intro u; omega
    · intro u l hl huk _
      have := inv.bound u l hl huk
      omega
  · refine ⟨k, inv.install_gen (lru_victim set) k tag hle ?_ ?_ hnotag
      (length_install _ _ _) (fun u => getElem?_install set _ tag u hv)⟩
    · intro u; omega
    · intro u l hl huk huv
      obtain ⟨lv, hlv⟩ : ∃ lv, set.lines[lru_victim set]? = some lv :=
        ⟨_, List.getElem?_eq_getElem hv⟩
      have h1 := hmax u l lv hl hlv
      have h2 := inv.bound _ lv hlv (by omega)
      have h3 : l.lru ≠ lv.lru := fun he =>
        huv (inv.lru_inj u _ l lv hl hlv huk (by omega) he)
      omega

theorem cache_access_hit (c : Cache) (a w : Nat)
    (h : find_hit (addr_tag c a) 0 (c.sets.getD (set_index c a) default).lines = some w) :
    cache_access c a =
      (1, { c with
            accesses := (c.accesses + 1) % 18446744073709551616
            hits := (c.hits + 1) % 18446744073709551616
            sets := c.sets.set (set_index c a)
              (lru_touch (c.sets.getD (set_index c a) default) w) }) := by
  simp only [cache_access, h]

theorem cache_access_miss (c : Cache) (a : Nat)
    (h : find_hit (addr_tag c a) 0 (c.sets.getD (set_index c a) default).lines = none) :
    cache_access c a =
      (0, { c with
            accesses := (c.accesses + 1) % 18446744073709551616
            misses := (c.misses + 1) % 18446744073709551616
            sets := c.sets.set (set_index c a)
              (install (c.sets.getD (set_index c a) default)
                (lru_victim (c.sets.getD (set_index c a) default)) (addr_tag c a)) }) := by
  simp only [cache_access, h]

/-- An access leaves the configuration fields alone and replaces one set. -/
theorem cache_access_frame (c : Cache) (a : Nat) :
    (cache_access c a).2.num_sets = c.num_sets ∧ (cache_access c a).2.ways = c.ways ∧
    (cache_access c a).2.block_size = c.block_size ∧
    (cache_access c a).2.cache_size = c.cache_size ∧
    (cache_access c a).2.index_mask = c.index_mask ∧
    (cache_access c a).2.index_shift = c.index_shift ∧
    (cache_access c a).2.offset_mask = c.offset_mask ∧
    ∃ s, (cache_access c a).2.sets = c.sets.set (set_index c a) s := by
  cases h : find_hit (addr_tag c a) 0 (c.sets.getD (set_index c a) default).lines with
  | some w => rw [cache_access_hit c a w h]; exact ⟨rfl, rfl, rfl, rfl, rfl, rfl, rfl, _, rfl⟩
  | none => rw [cache_access_miss c a h]; exact ⟨rfl, rfl, rfl, rfl, rfl, rfl, rfl, _, rfl⟩

theorem set_index_cache_access (c : Cache) (a e : Nat) :
    set_index (cache_access c a).2 e = set_index c e := by
  obtain ⟨-, -, h3, -, h5, -, -, -⟩ := cache_access_frame c a
  simp only [set_index, block_addr, h3, h5]

theorem addr_tag_cache_access (c : Cache) (a e : Nat) :
    addr_tag (cache_access c a).2 e = addr_tag c e := by
  obtain ⟨-, -, h3, -, -, h6, -, -⟩ := cache_access_frame c a
  simp only [addr_tag, block_addr, h3, h6]

theorem getD_set_self (sets : List CacheSet) (i : Nat) (s : CacheSet) (hi : i < sets.length) :
    (sets.set i s).getD i default = s := by
  simp [List.getD_eq_getElem?_getD, List.getElem?_set, hi]

theorem getD_set_other (sets : List CacheSet) (i j : Nat) (s : CacheSet) (hij : i ≠ j) :
    (sets.set i s).getD j default = sets.getD j default := by
  simp [List.getD_eq_getElem?_getD, List.getElem?_set, hij]

/-- The set addressed by `a` after `cache_access c a`. -/
theorem cache_access_set (c : Cache) (a : Nat) (hi : set_index c a < c.sets.length) :
    ((cache_access c a).2.sets.getD (set_index c a) default).lines =
      match find_hit (addr_tag c a) 0 (c.sets.getD (set_index c a) default).lines with
      | some w => (lru_touch (c.sets.getD (set_index c a) default) w).lines
      | none => (install (c.sets.getD (set_index c a) default)
          (lru_victim (c.sets.getD (set_index c a) default)) (addr_tag c a)).lines := by
  cases h : find_hit (addr_tag c a) 0 (c.sets.getD (set_index c a) default).lines with
  | some w => rw [cache_access_hit c a w h]; simp only; rw [getD_set_self _ _ _ hi]
  | none => rw [cache_access_miss c a h]; simp only; rw [getD_set_self _ _ _ hi]

theorem cache_access_other_set (c : Cache) (a i : Nat) (hi : set_index c a ≠ i) :
    (cache_access c a).2.sets.getD i default = c.sets.getD i default := by
  obtain ⟨-, -, -, -, -, -, -, s, hs⟩ := cache_access_frame c a
  rw [hs, getD_set_other _ _ _ _ hi]

/-- One access keeps the invariant of the cache; the touched way of the
addressed set gets the new time. -/
theorem CacheInv.step {c : Cache} {T : Nat → Nat → Nat} {t : Nat} (inv : CacheInv c T t)
    (a : Nat) :
    CacheInv (cache_access c a).2
      (fun i u => if set_index c a = i ∧ touched_way c a = u then t + 1 else T i u) (t + 1) := by
  obtain ⟨hns, hways, -, -, -, -, -, s, hs⟩ := cache_access_frame c a
  have hidx : set_index c a < c.sets.length := by rw [inv.length_sets]; exact inv.index_lt a
  refine ⟨?_, ?_, ?_, ?_⟩
  · rw [hs, List.length_set, hns]; exact inv.length_sets
  · intro e; rw [set_index_cache_access, hns]; exact inv.index_lt e
  · intro i hi
    rw [hns] at hi
    rw [hways]
    by_cases hia : set_index c a = i
    · subst hia
      rw [cache_access_set c a hidx, ← inv.length_lines _ hi]
      cases h : find_hit (addr_tag c a) 0 (c.sets.getD (set_index c a) default).lines with
      | some w => simp only [lru_touch, length_lru_touch_loop]
      | none => simp only [length_install]
    · rw [cache_access_other_set c a i hia]; exact inv.length_lines i hi
  · intro i hi
    rw [hns] at hi
    obtain ⟨k, hk⟩ := inv.sets_inv i hi
    by_cases hia : set_index c a = i
    · subst hia
      rw [cache_access_set c a hidx]
      cases h : find_hit (addr_tag c a) 0 (c.sets.getD (set_index c a) default).lines with
      | some w =>
        obtain ⟨u, l, hw, hget, hv, -, -⟩ := find_hit_some _ _ 0 w h
        rw [Nat.zero_add] at hw
        subst hw
        have hwk : w < k := (hk.valid_iff w l hget).1 hv
        have htw : touched_way c a = w := by simp only [touched_way, h]
        have hτ : (fun u => if set_index c a = set_index c a ∧ touched_way c a = u then t + 1
            else T (set_index c a) u) = (fun u => if u = w then t + 1 else T (set_index c a) u) := by
          funext u
          simp only [htw, true_and, eq_comm]
        rw [hτ]
        refine ⟨k, ?_⟩
        simp only [lru_touch, getD_of_getElem? _ _ _ hget]
        exact hk.touch w l hget hwk
      | none =>
        have htw : touched_way c a = lru_victim (c.sets.getD (set_index c a) default) := by
          simp only [touched_way, h]
        have hτ : (fun u => if set_index c a = set_index c a ∧ touched_way c a = u then t + 1
            else T (set_index c a) u) =
            (fun u => if u = lru_victim (c.sets.getD (set_index c a) default) then t + 1
              else T (set_index c a) u) := by
          funext u
          simp only [htw, true_and, eq_comm]
        rw [hτ]
        exact hk.miss (addr_tag c a) h
    · rw [cache_access_other_set c a i hia]
      have hτ : (fun u => if set_index c a = i ∧ touched_way c a = u then t + 1 else T i u)
          = T i := by
        funext u
        simp [hia]
      rw [hτ]
      exact ⟨k, hk.mono (t + 1) (by omega)⟩

theorem SetInv.of_replicate (w : Nat) (hw0 : w ≠ 0) (hw : w < 4294967296) (τ : Nat → Nat) :
    SetInv (List.replicate w ({ valid := false, tag := 0, lru := 0 } : CacheLine)) τ 0 0 := by
  have hback : ∀ (u : Nat) (l : CacheLine),
      (List.replicate w ({ valid := false, tag := 0, lru := 0 } : CacheLine))[u]? = some l →
      l = { valid := false, tag := 0, lru := 0 } := by
    intro u l hl
    rw [List.getElem?_replicate] at hl
    split_ifs at hl
    exact (Option.some.inj hl).symm
  refine ⟨?_, ?_, ?_, ?_, ?_, ?_, ?_, ?_, ?_⟩
  · rw [List.length_replicate]; omega
  · rw [List.length_replicate]; exact hw
  · exact Nat.zero_le _
  · intro u l hl
    rw [hback u l hl]
    simp
  · intro u l hl _
    rw [hback u l hl]
  · intro u l _ hu; omega
  · intro u1 u2 l1 l2 _ _ hu; omega
  · intro u1 u2 hu; omega
  · intro u1 u2 l1 l2 _ _ hu; omega

theorem set_index_lt_of_mask (c : Cache) (n : Nat) (hm : c.index_mask = 2 ^ n - 1)
    (hn : c.num_sets = 2 ^ n) (addr : Nat) : set_index c addr < c.num_sets := by
  have hpos : 0 < 2 ^ n := Nat.two_pow_pos n
  have h1 : block_addr c addr &&& c.index_mask < 2 ^ n := by
    rw [hm, Nat.and_pow_two_sub_one_eq_mod]
    exact Nat.mod_lt _ hpos
  rw [hn]
  exact Nat.lt_of_le_of_lt (Nat.mod_le _ _) h1

/-- A freshly created cache satisfies the invariant, at time `0`. -/
theorem CacheInv.of_create (cs bs w : Nat) (c : Cache) (hcs : cs < 4294967296)
    (hw : w < 4294967296) (h : cache_create cs bs w = .ok c) (T : Nat → Nat → Nat) :
    CacheInv c T 0 := by
  obtain ⟨a, b, n, -, -, -, -, -, hw0, -, hc⟩ := cache_create_ok cs bs w c hcs h
  have hgetD : ∀ (i : Nat), i < 2 ^ n → c.sets.getD i default =
      { lines := List.replicate w { valid := false, tag := 0, lru := 0 }, ways := w } := by
    intro i hi
    rw [hc]
    simp [List.getD_eq_getElem?_getD, List.getElem?_replicate, hi]
  have hns : c.num_sets = 2 ^ n := by rw [hc]
  have hcw : c.ways = w := by rw [hc]
  refine ⟨?_, ?_, ?_, ?_⟩
  · rw [hc]; simp
  · exact set_index_lt_of_mask c n (by rw [hc]) hns
  · intro i hi
    rw [hns] at hi
    rw [hgetD i hi, hcw]
    simp
  · intro i hi
    rw [hns] at hi
    rw [hgetD i hi]
    exact ⟨0, SetInv.of_replicate w hw0 hw (T i)⟩

/-- The invariant holds along every run, for the recorded touch times. -/
theorem CacheInv.run_trace (trace : List Nat) :
    ∀ (c : Cache) (T : Nat → Nat → Nat) (t : Nat), CacheInv c T t →
      CacheInv (CacheSim.run c trace) (fun i u => last_touch_from i u c trace t (T i u))
        (t + trace.length) := by
  induction trace with
  | nil => intro c T t inv; simpa [CacheSim.run, last_touch_from] using inv
  | cons a as ih =>
    intro c T t inv
    have h := ih _ _ _ (inv.step a)
    simp only [CacheSim.run, last_touch_from, List.length_cons]
    rw [show t + (as.length + 1) = t + 1 + as.length by omega]
    exact h

/-- Every state reached from a freshly created cache satisfies the invariant. -/
theorem CacheInv.reachable (cs bs w : Nat) (c0 : Cache) (hcs : cs < 4294967296)
    (hw : w < 4294967296) (h : cache_create cs bs w = .ok c0) (trace : List Nat) :
    CacheInv (CacheSim.run c0 trace) (fun i u => last_touch c0 trace i u) trace.length := by
  have := CacheInv.run_trace trace c0 (fun _ _ => 0) 0 (CacheInv.of_create cs bs w c0 hcs hw h _)
  simpa [last_touch] using this

theorem find_hit_eq_none (tag : Nat) (ls : List CacheLine) (w : Nat)
    (h : ∀ (u : Nat) (l : CacheLine), ls[u]? = some l → ¬ (l.valid = true ∧ l.tag = tag)) :
    find_hit tag w ls = none := by
  cases hf : find_hit tag w ls with
  | none => rfl
  | some j =>
    obtain ⟨u, l, -, hget, hv, ht, -⟩ := find_hit_some tag ls w j hf
    exact absurd ⟨hv, ht⟩ (h u l hget)

theorem cache_access_result_hit (c : Cache) (a : Nat) :
    (cache_access c a).1 = 1 ↔
      ∃ w, find_hit (addr_tag c a) 0 (c.sets.getD (set_index c a) default).lines = some w := by
  cases h : find_hit (addr_tag c a) 0 (c.sets.getD (set_index c a) default).lines with
  | some w => rw [cache_access_hit c a w h]; simp
  | none => rw [cache_access_miss c a h]; simp

theorem cache_access_result_miss (c : Cache) (a : Nat) :
    (cache_access c a).1 = 0 ↔
      find_hit (addr_tag c a) 0 (c.sets.getD (set_index c a) default).lines = none := by
  cases h : find_hit (addr_tag c a) 0 (c.sets.getD (set_index c a) default).lines with
  | some w => rw [cache_access_hit c a w h]; simp
  | none => rw [cache_access_miss c a h]; simp

theorem touch_line_valid_tag (old h u : Nat) (l : CacheLine) :
    (touch_line old h u l).valid = l.valid ∧ (touch_line old h u l).tag = l.tag := by
  unfold touch_line
  split_ifs <;> exact ⟨rfl, rfl⟩

/-- In a state that satisfies the invariant, the block just accessed is
resident: a second access to the same address is a HIT. -/
theorem CacheInv.access_twice {c : Cache} {T : Nat → Nat → Nat} {t : Nat}
    (inv : CacheInv c T t) (a : Nat) :
    (cache_access (cache_access c a).2 a).1 = 1 := by
  have hidx : set_index c a < c.sets.length := by rw [inv.length_sets]; exact inv.index_lt a
  obtain ⟨k, hk⟩ := inv.sets_inv _ (inv.index_lt a)
  rw [cache_access_result_hit, set_index_cache_access, addr_tag_cache_access,
    cache_access_set c a hidx]
  cases h : find_hit (addr_tag c a) 0 (c.sets.getD (set_index c a) default).lines with
  | some w =>
    obtain ⟨u, l, hw, hget, hv, ht, -⟩ := find_hit_some _ _ 0 w h
    simp only [lru_touch]
    have hg := getElem?_lru_touch_loop
      ((c.sets.getD (set_index c a) default).lines.getD w default).lru w
      (c.sets.getD (set_index c a) default).lines 0 u
    rw [hget, Option.map_some'] at hg
    exact find_hit_isSome _ _ 0 u _ hg
      (by rw [(touch_line_valid_tag _ _ _ _).1]; exact hv)
      (by rw [(touch_line_valid_tag _ _ _ _).2]; exact ht)
  | none =>
    obtain ⟨hv, -⟩ := lru_victim_spec hk
    obtain ⟨lv, hlv⟩ : ∃ lv, (c.sets.getD (set_index c a) default).lines[
        lru_victim (c.sets.getD (set_index c a) default)]? = some lv :=
      ⟨_, List.getElem?_eq_getElem hv⟩
    simp only
    have hg := getElem?_install (c.sets.getD (set_index c a) default) _ (addr_tag c a)
      (lru_victim (c.sets.getD (set_index c a) default)) hv
    rw [hlv, Option.map_some'] at hg
    exact find_hit_isSome _ _ 0 _ _ hg (by simp [install_line]) (by simp [install_line])

theorem cache_create_counters (cs bs w : Nat) (c : Cache) (h : cache_create cs bs w = .ok c) :
    c.accesses = 0 ∧ c.hits = 0 ∧ c.misses = 0 := by
  unfold cache_create at h
  split_ifs at h
  have hc := (Except.ok.inj h).symm
  rw [hc]
  exact ⟨rfl, rfl, rfl⟩

/-- The counters after one access, in terms of the counters before it. -/
theorem cache_access_counters (c : Cache) (a : Nat) :
    (cache_access c a).2.accesses = (c.accesses + 1) % 18446744073709551616 ∧
    (((cache_access c a).1 = 1 ∧
        (cache_access c a).2.hits = (c.hits + 1) % 18446744073709551616 ∧
        (cache_access c a).2.misses = c.misses) ∨
     ((cache_access c a).1 = 0 ∧
        (cache_access c a).2.misses = (c.misses + 1) % 18446744073709551616 ∧
        (cache_access c a).2.hits = c.hits)) := by
  cases h : find_hit (addr_tag c a) 0 (c.sets.getD (set_index c a) default).lines with
  | some w => rw [cache_access_hit c a w h]; exact ⟨rfl, Or.inl ⟨rfl, rfl, rfl⟩⟩
  | none => rw [cache_access_miss c a h]; exact ⟨rfl, Or.inr ⟨rfl, rfl, rfl⟩⟩

/-- While fewer than `2 ^ 64` accesses were made, `accesses` counts them and
`hits + misses` is the same number. -/
theorem run_counters (trace : List Nat) :
    ∀ (c : Cache) (n : Nat), c.accesses = n → c.hits + c.misses = n →
      n + trace.length < 18446744073709551616 →
      (run c trace).accesses = n + trace.length ∧
      (run c trace).hits + (run c trace).misses = n + trace.length := by
  induction trace with
  | nil => intro c n h1 h2 _; exact ⟨h1, h2⟩
  | cons a as ih =>
    intro c n h1 h2 hlen
    simp only [List.length_cons] at hlen
    obtain ⟨hacc, hcase⟩ := cache_access_counters c a
    have h := ih (cache_access c a).2 (n + 1)
      (by rw [hacc, h1]; exact Nat.mod_eq_of_lt (by omega))
      (by
        rcases hcase with ⟨-, hh, hm⟩ | ⟨-, hm, hh⟩
        · rw [hh, hm, Nat.mod_eq_of_lt (by omega)]; omega
        · rw [hh, hm, Nat.mod_eq_of_lt (by omega)]; omega)
      (by omega)
    simp only [run, List.length_cons]
    rw [show n + (as.length + 1) = n + 1 + as.length by omega]
    exact h

/-! ## Accepted configurations without overflow of `block_size*ways` -/

/-- For every accepted configuration `num_sets` is a positive power of two. -/
theorem accepted_num_sets_pow2 (cs bs w : Nat) (c : Cache) (hcs : cs < 4294967296)
    (h : cache_create cs bs w = .ok c) :
    0 < c.num_sets ∧ ∃ n, c.num_sets = 2 ^ n := by
  obtain ⟨a, b, n, -, -, -, -, -, -, -, hc⟩ := cache_create_ok cs bs w c hcs h
  have hns : c.num_sets = 2 ^ n := by rw [hc]
  exact ⟨by rw [hns]; exact Nat.two_pow_pos n, n, hns⟩

/-- When the product `block_size * ways` fits in 32 bits, an accepted
configuration has `num_sets * ways * block_size = cache_size`. -/
theorem accepted_product_of_no_overflow (cs bs w : Nat) (c : Cache) (hcs : cs < 4294967296)
    (hprod : bs * w < 4294967296) (h : cache_create cs bs w = .ok c) :
    c.num_sets * c.ways * c.block_size = c.cache_size := by
  obtain ⟨a, b, n, -, -, -, -, -, -, hmul, hc⟩ := cache_create_ok cs bs w c hcs h
  rw [Nat.mod_eq_of_lt hprod] at hmul
  rw [hc]
  simp only
  rw [Nat.mul_assoc, Nat.mul_comm w bs]
  exact hmul

/-- When the product `block_size * ways` fits in 32 bits, `cache_create` fails
exactly when one of the five configuration constraints is violated. -/
theorem cache_create_fails_iff_of_no_overflow (cs bs w : Nat)
    (hprod : bs * w < 4294967296) :
    (∃ e, cache_create cs bs w = .error e) ↔
      (¬ (∃ k, cs = 2 ^ k) ∨ ¬ (∃ k, bs = 2 ^ k) ∨ bs > cs ∨ w = 0 ∨ cs % (bs * w) ≠ 0) := by
  have hp1 := is_power_of_two_iff cs
  have hp2 := is_power_of_two_iff bs
  unfold cache_create
  rw [Nat.mod_eq_of_lt hprod]
  by_cases h1 : is_power_of_two cs = true
  · by_cases h2 : is_power_of_two bs = true
    · have e1 : ∃ k, cs = 2 ^ k := hp1.1 h1
      have e2 : ∃ k, bs = 2 ^ k := hp2.1 h2
      have hbs : bs ≠ 0 := by
        obtain ⟨k, hk⟩ := e2
        have := Nat.two_pow_pos k
        omega
      by_cases h3 : bs > cs
      · simp [h1, h2, h3]
      · by_cases h4 : w = 0
        · simp [h1, h2, h3, h4]
        · have hne : bs * w ≠ 0 := Nat.mul_ne_zero hbs h4
          by_cases h6 : cs % (bs * w) = 0
          · simp [h1, h2, h3, h4, hne, h6, e1, e2]
          · simp [h1, h2, h3, h4, hne, h6]
    · have : ¬ ∃ k, bs = 2 ^ k := fun e => h2 (hp2.2 e)
      simp [h1, h2, this]
  · have : ¬ ∃ k, cs = 2 ^ k := fun e => h1 (hp1.2 e)
    simp [h1, this]

/-! ## The claims -/

/-- Claim C1.  On a cache reached from a freshly created one by any sequence
of accesses, let an access to `a` miss on a set whose lines are all valid.  Then
the line that is overwritten is `lru_victim`, it was touched (hit or installed)
earlier than every other line of the set, the other lines keep their blocks; an
access made right after the miss to the block the victim held is a MISS, and an
access made instead to a block held by any other line is a HIT. -/
theorem miss_on_full_set_evicts_lru (cs bs w : Nat) (c0 : Cache)
    (hcs : cs < 4294967296) (hw : w < 4294967296) (hc : cache_create cs bs w = .ok c0)
    (trace : List Nat) (a : Nat)
    (hmiss : (cache_access (run c0 trace) a).1 = 0)
    (hfull : ∀ l ∈ (addressed_set (run c0 trace) a).lines, l.valid = true) :
    let s := run c0 trace
    let i := set_index s a
    let lines := (addressed_set s a).lines
    let v := lru_victim (addressed_set s a)
    let s2 := (cache_access s a).2
    let lines2 := (addressed_set s2 a).lines
    lines.length = w ∧ lines2.length = w ∧ v < w ∧
    lines2.getD v default = { valid := true, tag := addr_tag s a, lru := 0 } ∧
    (lines.getD v default).tag ≠ addr_tag s a ∧
    (∀ u, u < w → u ≠ v → (lines2.getD u default).valid = true ∧
        (lines2.getD u default).tag = (lines.getD u default).tag) ∧
    0 < last_touch c0 trace i v ∧
    (∀ u, u < w → u ≠ v → last_touch c0 trace i v < last_touch c0 trace i u) ∧
    (∀ e, set_index s e = i → addr_tag s e = (lines.getD v default).tag →
        (cache_access s2 e).1 = 0) ∧
    (∀ r u, u < w → u ≠ v → set_index s r = i → addr_tag s r = (lines.getD u default).tag →
        (cache_access s2 r).1 = 1) := by
  intro s i lines v s2 lines2
  have inv : CacheInv s (fun i u => last_touch c0 trace i u) trace.length :=
    CacheInv.reachable cs bs w c0 hcs hw hc trace
  have hcw : s.ways = w := by
    have h0 : c0.ways = w := by
      obtain ⟨_, _, _, -, -, -, -, -, -, -, hc0⟩ := cache_create_ok cs bs w c0 hcs hc
      rw [hc0]
    have : ∀ (tr : List Nat) (c : Cache), (run c tr).ways = c.ways := by
      intro tr
      induction tr with
      | nil => intro c; rfl
      | cons x xs ih => intro c; simp only [run]; rw [ih, (cache_access_frame c x).2.1]
    rw [← h0]; exact this trace c0
  have hidx : i < s.sets.length := by rw [inv.length_sets]; exact inv.index_lt a
  obtain ⟨k, hk⟩ := inv.sets_inv i (inv.index_lt a)
  have hlen : lines.length = w := by rw [← hcw]; exact inv.length_lines i (inv.index_lt a)
  have hfind : find_hit (addr_tag s a) 0 lines = none := (cache_access_result_miss s a).1 hmiss
  have hpos := hk.pos
  have hle := hk.le
  have hget : ∀ (u : Nat), u < w → ∃ l, lines[u]? = some l ∧ lines.getD u default = l := by
    intro u hu
    have hu2 : u < lines.length := by omega
    exact ⟨_, List.getElem?_eq_getElem hu2, getD_of_getElem? _ _ _ (List.getElem?_eq_getElem hu2)⟩
  -- the set is full
  have hkw : k = w := by
    obtain ⟨ll, hll, -⟩ := hget (w - 1) (by change 0 < lines.length at hpos; omega)
    have hv := hfull ll (List.getElem?_mem hll)
    have := (hk.valid_iff _ ll hll).1 hv
    change k ≤ lines.length at hle
    omega
  obtain ⟨hv, hcase⟩ := lru_victim_spec hk
  change v < lines.length at hv
  have hmax : ∀ (u : Nat) (l lv : CacheLine), lines[u]? = some l → lines[v]? = some lv →
      l.lru ≤ lv.lru := by
    rcases hcase with ⟨h1, -⟩ | ⟨-, h2⟩
    · change k < lines.length at h1; omega
    · exact h2
  obtain ⟨lv, hlv, hlvD⟩ := hget v (by omega)
  have hset2 : lines2 = (install (addressed_set s a) v (addr_tag s a)).lines := by
    have h1 : lines2 = ((cache_access s a).2.sets.getD (set_index s a) default).lines := by
      simp only [lines2, s2, addressed_set, set_index_cache_access]
    rw [h1, cache_access_set s a hidx]
    simp only [addressed_set, lines] at hfind
    simp only [hfind]
    rfl
  have hget2 : ∀ (u : Nat), u < w → ∃ l, lines[u]? = some l ∧ lines.getD u default = l ∧
      lines2[u]? = some (install_line v (addr_tag s a) u l) ∧
      lines2.getD u default = install_line v (addr_tag s a) u l := by
    intro u hu
    obtain ⟨l, hl, hlD⟩ := hget u hu
    have h2 : lines2[u]? = some (install_line v (addr_tag s a) u l) := by
      rw [hset2, getElem?_install _ _ _ _ hv]
      change Option.map _ lines[u]? = _
      rw [hl]; rfl
    exact ⟨l, hl, hlD, h2, getD_of_getElem? _ _ _ h2⟩
  have hvalid : ∀ (u : Nat) (l : CacheLine), lines[u]? = some l → u < w → l.valid = true :=
    fun u l hl hu => (hk.valid_iff u l hl).2 (by omega)
  have hnotag := find_hit_none _ _ 0 hfind
  have hl2eq : (s2.sets.getD i default).lines = lines2 := by
    simp only [lines2, s2, i, addressed_set, set_index_cache_access]
  refine ⟨hlen, ?_, by omega, ?_, ?_, ?_, ?_, ?_, ?_, ?_⟩
  · rw [hset2, length_install]; exact hlen
  · obtain ⟨l, -, -, -, h4⟩ := hget2 v (by omega)
    rw [h4]; simp [install_line]
  · rw [hlvD]
    intro heq
    exact hnotag v lv hlv ⟨hvalid v lv hlv (by omega), heq⟩
  · intro u hu huv
    obtain ⟨l, hl, hlD, -, h4⟩ := hget2 u hu
    rw [h4, hlD]
    have := hvalid u l hl hu
    simp [install_line, huv, this]
  · exact (hk.bound v lv hlv (by omega)).2.1
  · intro u hu huv
    obtain ⟨l, hl, -⟩ := hget u hu
    have h1 := hmax u l lv hl hlv
    have h3 : l.lru ≠ lv.lru := fun he =>
      huv (hk.lru_inj u v l lv hl hlv (by omega) (by omega) he)
    exact (hk.order u v l lv hl hlv (by omega) (by omega)).1 (by omega)
  · intro e hei hetag
    rw [cache_access_result_miss, set_index_cache_access, addr_tag_cache_access, hei, hetag]
    rw [hl2eq]
    apply find_hit_eq_none
    intro u l2 hl2 ⟨hv2, ht2⟩
    have hu : u < w := by
      by_contra hcon
      rw [List.getElem?_eq_none (by rw [hset2, length_install]; change lines.length ≤ u; omega)] at hl2
      exact absurd hl2 (by simp)
    obtain ⟨l, hl, -, h3, -⟩ := hget2 u hu
    rw [h3] at hl2
    have hl2e := (Option.some.inj hl2).symm
    rw [hlvD] at ht2
    by_cases huv : u = v
    · rw [hl2e, huv] at ht2
      simp [install_line] at ht2
      exact hnotag v lv hlv ⟨hvalid v lv hlv (by omega), ht2.symm⟩
    · have hval := hvalid u l hl hu
      rw [hl2e] at ht2
      simp [install_line, huv, hval] at ht2
      exact huv (hk.tag_inj u v l lv hl hlv (by omega) (by omega) ht2)
  · intro r u hu huv hri hrtag
    rw [cache_access_result_hit, set_index_cache_access, addr_tag_cache_access, hri, hrtag]
    rw [hl2eq]
    obtain ⟨l, hl, hlD, h3, -⟩ := hget2 u hu
    have hval := hvalid u l hl hu
    exact find_hit_isSome _ _ 0 u _ h3 (by simp [install_line, huv, hval])
      (by rw [hlD]; simp [install_line, huv, hval])

theorem miss_on_full_set_evicts_lru_witness :
    cache_create 32 16 2 = .ok cache_32_16_2 ∧
    (cache_access (run cache_32_16_2 [0, 256]) 512).1 = 0 ∧
    (∀ l ∈ (addressed_set (run cache_32_16_2 [0, 256]) 512).lines, l.valid = true) ∧
    lru_victim (addressed_set (run cache_32_16_2 [0, 256]) 512) = 0 ∧
    last_touch cache_32_16_2 [0, 256] 0 0 < last_touch cache_32_16_2 [0, 256] 0 1 ∧
    (cache_access (cache_access (run cache_32_16_2 [0, 256]) 512).2 0).1 = 0 ∧
    (cache_access (cache_access (run cache_32_16_2 [0, 256]) 512).2 256).1 = 1 := by
  have h := miss_on_full_set_evicts_lru 32 16 2 cache_32_16_2 (by decide) (by decide) rfl
    [0, 256] 512 (by decide) (by decide)
  exact ⟨rfl, by decide, by decide, by decide, h.2.2.2.2.2.2.2.1 1 (by decide) (by decide),
    h.2.2.2.2.2.2.2.2.1 0 (by decide) (by decide),
    h.2.2.2.2.2.2.2.2.2 256 1 (by decide) (by decide) (by decide) (by decide)⟩

/-- Claim C2, evaluated on the code.  With 16384 bytes, 16-byte blocks and one
way there are `2 ^ 10` sets, so the tag of address `0x100` (block 16) should be
`16 >> 10 = 0`; `cache_access` computes and stores `16 >> 4 = 1`, because it
shifts the block address by `index_shift`, the number of offset bits. -/
theorem tag_shift_is_offset_bits :
    ∃ c, cache_create 16384 16 1 = .ok c ∧ c.num_sets = 2 ^ 10 ∧
      block_addr c 256 = 16 ∧ block_addr c 256 >>> 10 = 0 ∧ addr_tag c 256 = 1 ∧
      (addressed_set (cache_access c 256).2 256).lines = [{ valid := true, tag := 1, lru := 0 }] :=
  ⟨_, rfl, by decide, by decide, by decide, by decide, by decide⟩

/-- Claim C3, evaluated on the code.  With 64 bytes, 16-byte blocks and one
way there are 4 sets.  Addresses `0` and `64` are blocks 0 and 4: same set,
different tags `block >> 2`.  After the access to `0`, the access to `64`
returns HIT instead of MISS, and block 0 is not replaced. -/
theorem direct_mapped_false_hit :
    ∃ c, cache_create 64 16 1 = .ok c ∧ c.ways = 1 ∧ c.num_sets = 2 ^ 2 ∧
      set_index c 0 = set_index c 64 ∧
      block_addr c 0 >>> 2 ≠ block_addr c 64 >>> 2 ∧
      (cache_access c 0).1 = 0 ∧
      (cache_access (run c [0]) 64).1 = 1 ∧
      (cache_access (run c [0, 64]) 0).1 = 1 :=
  ⟨_, rfl, by decide, by decide, by decide, by decide, by decide, by decide, by decide⟩

/-- Claim C4, evaluated on the code.  With 128 bytes, 16-byte blocks and two
ways, the addresses `0` and `64` lie in different blocks of set 0.  Accessed
once each on a fresh cache they give one MISS and one HIT, and the second line
of the set stays empty. -/
theorem cold_fill_false_hit :
    ∃ c, cache_create 128 16 2 = .ok c ∧ c.ways = 2 ∧
      block_addr c 0 ≠ block_addr c 64 ∧ set_index c 0 = 0 ∧ set_index c 64 = 0 ∧
      outcomes c [0, 64] = [0, 1] ∧ (run c [0, 64]).hits = 1 ∧ (run c [0, 64]).misses = 1 ∧
      (addressed_set (run c [0, 64]) 0).lines =
        [{ valid := true, tag := 0, lru := 0 }, { valid := false, tag := 0, lru := 0 }] :=
  ⟨_, rfl, by decide, by decide, by decide, by decide, by decide, by decide, by decide, by decide⟩

/-- Claim C5.  In every state reached from a freshly created cache, accessing
an address and then the same address again makes the second access a HIT. -/
theorem repeated_access_hits (cs bs w : Nat) (c0 : Cache)
    (hcs : cs < 4294967296) (hw : w < 4294967296) (hc : cache_create cs bs w = .ok c0)
    (trace : List Nat) (a : Nat) :
    (cache_access (cache_access (run c0 trace) a).2 a).1 = 1 :=
  (CacheInv.reachable cs bs w c0 hcs hw hc trace).access_twice a

theorem repeated_access_hits_witness :
    cache_create 32 16 2 = .ok cache_32_16_2 ∧
    (cache_access (cache_access (run cache_32_16_2 [0, 256, 512]) 0).2 0).1 = 1 :=
  ⟨rfl, repeated_access_hits 32 16 2 cache_32_16_2 (by decide) (by decide) rfl [0, 256, 512] 0⟩

/-- Claim C6.  Along a run from a freshly created cache, as long as fewer than
`2 ^ 64` accesses are made (the 64-bit counters do not wrap), after each access
`accesses = hits + misses`; the access adds one to `accesses` and one to `hits`
when it returns HIT, to `misses` when it returns MISS, leaving the other
counter alone, so no counter decreases. -/
theorem counters_after_each_access (cs bs w : Nat) (c0 : Cache)
    (hc : cache_create cs bs w = .ok c0) (trace : List Nat) (a : Nat)
    (hlen : trace.length + 1 < 18446744073709551616) :
    let s := run c0 trace
    let r := (cache_access s a).1
    let s2 := (cache_access s a).2
    s2.accesses = s2.hits + s2.misses ∧
    s2.accesses = s.accesses + 1 ∧
    s2.accesses = trace.length + 1 ∧
    ((r = 1 ∧ s2.hits = s.hits + 1 ∧ s2.misses = s.misses) ∨
     (r = 0 ∧ s2.misses = s.misses + 1 ∧ s2.hits = s.hits)) ∧
    s.hits ≤ s2.hits ∧ s.misses ≤ s2.misses := by
  intro s r s2
  obtain ⟨h0a, h0h, h0m⟩ := cache_create_counters cs bs w c0 hc
  obtain ⟨h1, h2⟩ := run_counters trace c0 0 h0a (by omega) (by omega)
  obtain ⟨hacc, hcase⟩ := cache_access_counters s a
  simp only [Nat.zero_add] at h1 h2
  change s.accesses = _ at h1
  change s.hits + s.misses = _ at h2
  change s2.accesses = _ at hacc
  have hacc2 : s2.accesses = s.accesses + 1 := by
    rw [hacc]; exact Nat.mod_eq_of_lt (by omega)
  rcases hcase with ⟨hr, hh, hm⟩ | ⟨hr, hm, hh⟩
  · change s2.hits = _ at hh
    change s2.misses = _ at hm
    have hh2 : s2.hits = s.hits + 1 := by rw [hh]; exact Nat.mod_eq_of_lt (by omega)
    exact ⟨by omega, hacc2, by omega, Or.inl ⟨hr, hh2, hm⟩, by omega, by omega⟩
  · change s2.hits = _ at hh
    change s2.misses = _ at hm
    have hm2 : s2.misses = s.misses + 1 := by rw [hm]; exact Nat.mod_eq_of_lt (by omega)
    exact ⟨by omega, hacc2, by omega, Or.inr ⟨hr, hm2, hh⟩, by omega, by omega⟩

theorem counters_after_each_access_witness :
    cache_create 32 16 2 = .ok cache_32_16_2 ∧
    [0, 256, 0].length + 1 < 18446744073709551616 ∧
    (cache_access (run cache_32_16_2 [0, 256, 0]) 512).2.accesses =
      (cache_access (run cache_32_16_2 [0, 256, 0]) 512).2.hits +
      (cache_access (run cache_32_16_2 [0, 256, 0]) 512).2.misses :=
  ⟨rfl, by decide,
    (counters_after_each_access 32 16 2 cache_32_16_2 rfl [0, 256, 0] 512 (by decide)).1⟩

/-- Claim C7, evaluated on the code.  The configuration `2 ^ 31` bytes,
`2 ^ 31`-byte blocks, 3 ways is accepted, because the 32-bit product
`block_size*ways` wraps to `2 ^ 31`; it yields one set, and
`num_sets * ways * block_size` is three times `cache_size`. -/
theorem overflowed_product_accepted :
    ∃ c, cache_create 2147483648 2147483648 3 = .ok c ∧ c.num_sets = 1 ∧ c.ways = 3 ∧
      c.block_size = 2147483648 ∧ c.cache_size = 2147483648 ∧
      c.num_sets * c.ways * c.block_size = 6442450944 ∧
      c.num_sets * c.ways * c.block_size ≠ c.cache_size :=
  ⟨_, rfl, by decide, by decide, by decide, by decide, by decide, by decide⟩

/-- Claim C8, evaluated on the code.  The size `2 ^ 31` is not divisible by
`block_size * ways = 3 * 2 ^ 31`, but `cache_create` accepts the configuration;
the configuration `100, 16, 1` is rejected as the claim says. -/
theorem indivisible_size_accepted :
    (∃ c, cache_create 2147483648 2147483648 3 = .ok c) ∧
    2147483648 % (2147483648 * 3) ≠ 0 ∧
    cache_create 100 16 1 = .error .cache_size_not_pow2 :=
  ⟨⟨_, rfl⟩, by decide, rfl⟩

/-- Claim C9.  For an accepted configuration the set index of `cache_access`
is `(addr / block_size) & (num_sets - 1)`, the block address `addr / block_size`
is `addr >> log2 block_size`, and the index is below `num_sets`. -/
theorem set_index_spec (cs bs w : Nat) (c : Cache)
    (hcs : cs < 4294967296) (hc : cache_create cs bs w = .ok c) (addr : Nat) :
    c.block_size = bs ∧
    set_index c addr = (addr / bs) &&& (c.num_sets - 1) ∧
    addr / bs = addr >>> Nat.log2 bs ∧
    set_index c addr < c.num_sets := by
  obtain ⟨a, b, n, ha, hb, hba, ha32, hna, -, -, hc0⟩ := cache_create_ok cs bs w c hcs hc
  have hbs : c.block_size = bs := by rw [hc0]
  have hns : c.num_sets = 2 ^ n := by rw [hc0]
  have hm : c.index_mask = 2 ^ n - 1 := by rw [hc0]
  have hlt := set_index_lt_of_mask c n hm hns addr
  refine ⟨hbs, ?_, ?_, hlt⟩
  · have hpos : 0 < 2 ^ n := Nat.two_pow_pos n
    have h32 : 2 ^ n ≤ 2 ^ 31 := Nat.pow_le_pow_right (by decide) (by omega)
    have hand : block_addr c addr &&& c.index_mask < 2 ^ n := by
      rw [hm, Nat.and_pow_two_sub_one_eq_mod]; exact Nat.mod_lt _ hpos
    rw [set_index, Nat.mod_eq_of_lt (by norm_num at h32; omega), hm, hns, block_addr, hbs]
  · rw [hb, Nat.log2_two_pow, Nat.shiftRight_eq_div_pow]

theorem set_index_spec_witness :
    cache_create 32 16 2 = .ok cache_32_16_2 ∧
    set_index cache_32_16_2 1000 = (1000 / 16) &&& (cache_32_16_2.num_sets - 1) ∧
    set_index cache_32_16_2 1000 < cache_32_16_2.num_sets :=
  ⟨rfl, (set_index_spec 32 16 2 cache_32_16_2 (by decide) rfl 1000).2.1,
    (set_index_spec 32 16 2 cache_32_16_2 (by decide) rfl 1000).2.2.2⟩

/-- Claim C10.  Two addresses in the same block are not distinguished: in any
state `cache_access` returns the same result and the same new state. -/
theorem same_block_same_access (c : Cache) (a b : Nat)
    (h : a / c.block_size = b / c.block_size) :
    cache_access c a = cache_access c b := by
  have hb : block_addr c a = block_addr c b := h
  have hi : set_index c a = set_index c b := by simp only [set_index, hb]
  have ht : addr_tag c a = addr_tag c b := by simp only [addr_tag, hb]
  simp only [cache_access, hi, ht]

theorem same_block_same_access_witness :
    3 / cache_32_16_2.block_size = 12 / cache_32_16_2.block_size ∧
    cache_access cache_32_16_2 3 = cache_access cache_32_16_2 12 :=
  ⟨by decide, same_block_same_access cache_32_16_2 3 12 (by decide)⟩

/-! ## Further lemmas -/

/-- The scan for the largest counter keeps the first line that reaches it:
when it returns a later line, every scanned line before that one has a
strictly smaller counter. -/
theorem max_lru_loop_first (ls : List CacheLine) (w victim vlru : Nat) :
    (max_lru_loop ls w victim vlru = victim ∧
      ∀ (u : Nat) (l : CacheLine), ls[u]? = some l → l.lru ≤ vlru) ∨
    (∃ u l, max_lru_loop ls w victim vlru = w + u ∧ ls[u]? = some l ∧ vlru < l.lru ∧
      (∀ (u2 : Nat) (l2 : CacheLine), ls[u2]? = some l2 → l2.lru ≤ l.lru) ∧
      (∀ (u2 : Nat) (l2 : CacheLine), u2 < u → ls[u2]? = some l2 → l2.lru < l.lru)) := by
  induction ls generalizing w victim vlru with
  | nil => left; simp [max_lru_loop]
  | cons l0 ls ih =>
    simp only [max_lru_loop]
    split_ifs with hc
    · right
      rcases ih (w + 1) w l0.lru with ⟨hr, hall⟩ | ⟨u, l, hr, hget, hlt, hall, hbefore⟩
      · refine ⟨0, l0, by simpa using hr, by simp, hc, ?_, ?_⟩
        · intro u2 l2 hget2
          cases u2 with
          | zero => simp at hget2; subst hget2; exact Nat.le_refl _
          | succ u2 => exact hall u2 l2 (by simpa using hget2)
        · intro u2 l2 hu2; omega
      · refine ⟨u + 1, l, by rw [hr]; omega, by simpa using hget, by omega, ?_, ?_⟩
        · intro u2 l2 hget2
          cases u2 with
          | zero => simp at hget2; subst hget2; omega
          | succ u2 => exact hall u2 l2 (by simpa using hget2)
        · intro u2 l2 hu2 hget2
          cases u2 with
          | zero => simp at hget2; subst hget2; omega
          | succ u2 => exact hbefore u2 l2 (by omega) (by simpa using hget2)
    · rcases ih (w + 1) victim vlru with ⟨hr, hall⟩ | ⟨u, l, hr, hget, hlt, hall, hbefore⟩
      · left
        refine ⟨hr, ?_⟩
        intro u2 l2 hget2
        cases u2 with
        | zero => simp at hget2; subst hget2; omega
        | succ u2 => exact hall u2 l2 (by simpa using hget2)
      · right
        refine ⟨u + 1, l, by rw [hr]; omega, by simpa using hget, hlt, ?_, ?_⟩
        · intro u2 l2 hget2
          cases u2 with
          | zero => simp at hget2; subst hget2; omega
          | succ u2 => exact hall u2 l2 (by simpa using hget2)
        · intro u2 l2 hu2 hget2
          cases u2 with
          | zero => simp at hget2; subst hget2; omega
          | succ u2 => exact hbefore u2 l2 (by omega) (by simpa using hget2)

theorem getElem?_lt_length (ls : List CacheLine) (u : Nat) (l : CacheLine)
    (h : ls[u]? = some l) : u < ls.length := by
  by_contra hcon
  rw [List.getElem?_eq_none (by omega)] at h
  exact absurd h (by simp)

theorem touch_line_lru (old h u : Nat) (l : CacheLine) :
    (u = h → (touch_line old h u l).lru = 0) ∧
    (u ≠ h → l.valid = true → l.lru ≤ old →
      (touch_line old h u l).lru = (l.lru + 1) % 4294967296) ∧
    (u ≠ h → (l.valid = false ∨ old < l.lru) → (touch_line old h u l).lru = l.lru) := by
  refine ⟨?_, ?_, ?_⟩
  · intro hu
    simp [touch_line, hu]
  · intro hu hv hle
    have hne : (u == h) = false := by simpa using hu
    simp [touch_line, hne, hv, hle]
  · intro hu hcase
    have hne : (u == h) = false := by simpa using hu
    rcases hcase with hv | hgt
    · simp [touch_line, hne, hv]
    · have : ¬ l.lru ≤ old := by omega
      simp [touch_line, hne, this]

theorem lru_victim_lt (set : CacheSet) (hways : set.lines ≠ []) :
    lru_victim set < set.lines.length := by
  unfold lru_victim
  cases hfi : first_invalid 0 set.lines with
  | some j =>
    obtain ⟨u, l, hj, hget, -, -⟩ := first_invalid_some set.lines 0 j hfi
    have := getElem?_lt_length _ _ _ hget
    simp only
    omega
  | none =>
    simp only
    cases hlines : set.lines with
    | nil => exact absurd hlines hways
    | cons l0 ls =>
      simp only
      rcases max_lru_loop_spec ls 1 0 l0.lru with ⟨hr, -⟩ | ⟨u, l, hr, hget, -, -⟩
      · rw [hr]; simp
      · have := getElem?_lt_length _ _ _ hget
        rw [hr]; simp; omega

theorem getElem?_getD_of_lt (ls : List CacheLine) (u : Nat) (h : u < ls.length) :
    ls[u]? = some (ls.getD u default) := by
  have h1 : ls[u]? = some ls[u] := List.getElem?_eq_getElem h
  rw [getD_of_getElem? _ _ _ h1]; exact h1

theorem getElem?_canonical_touch_loop (old h : Nat) (ls : List CacheLine) (w u : Nat) :
    (canonical_touch_loop old h w ls)[u]? = (ls[u]?).map (canonical_touch_line old h (w + u)) := by
  induction ls generalizing w u with
  | nil => simp [canonical_touch_loop]
  | cons l ls ih =>
    cases u with
    | zero => simp [canonical_touch_loop]
    | succ u =>
      simp only [canonical_touch_loop, List.getElem?_cons_succ, ih]
      rw [show w + 1 + u = w + (u + 1) by omega]

/-- On a set that satisfies the invariant the canonical update and `lru_touch`
agree: no other valid line has the counter of the hit line. -/
theorem canonical_touch_eq {set : CacheSet} {τ : Nat → Nat} {t k : Nat}
    (inv : SetInv set.lines τ t k) (h : Nat) (lh : CacheLine)
    (hget : set.lines[h]? = some lh) (hk : h < k) :
    canonical_touch set h = lru_touch set h := by
  have hlines : canonical_touch_loop (set.lines.getD h default).lru h 0 set.lines =
      lru_touch_loop (set.lines.getD h default).lru h 0 set.lines := by
    apply List.ext_getElem?
    intro u
    rw [getElem?_canonical_touch_loop, getElem?_lru_touch_loop, Nat.zero_add,
      getD_of_getElem? _ _ _ hget]
    cases hl : set.lines[u]? with
    | none => rfl
    | some l =>
      simp only [Option.map_some', Option.some.injEq]
      by_cases huh : u = h
      · simp [canonical_touch_line, touch_line, huh]
      · have hne : (u == h) = false := by simpa using huh
        cases hval : l.valid
        · simp [canonical_touch_line, touch_line, hne, hval]
        · have huk : u < k := (inv.valid_iff u l hl).1 hval
          have hdist : l.lru ≠ lh.lru := fun he =>
            huh (inv.lru_inj u h l lh hl hget huk hk he)
          by_cases hlt : l.lru < lh.lru
          · have hle : l.lru ≤ lh.lru := by omega
            simp [canonical_touch_line, touch_line, hne, hval, hlt, hle]
          · have hle : ¬ l.lru ≤ lh.lru := by omega
            simp [canonical_touch_line, touch_line, hne, hval, hlt, hle]
  simp only [canonical_touch, lru_touch, hlines]

theorem canonical_access_eq {c : Cache} {T : Nat → Nat → Nat} {t : Nat}
    (inv : CacheInv c T t) (a : Nat) : canonical_access c a = cache_access c a := by
  obtain ⟨k, hk⟩ := inv.sets_inv _ (inv.index_lt a)
  cases h : find_hit (addr_tag c a) 0 (c.sets.getD (set_index c a) default).lines with
  | some w =>
    obtain ⟨u, l, hw, hget, hv, -, -⟩ := find_hit_some _ _ 0 w h
    rw [Nat.zero_add] at hw
    subst hw
    have hwk : w < k := (hk.valid_iff w l hget).1 hv
    rw [cache_access_hit c a w h]
    simp only [canonical_access, h, canonical_touch_eq hk w l hget hwk]
  | none =>
    rw [cache_access_miss c a h]
    simp only [canonical_access, h]

theorem canonical_run_eq (trace : List Nat) :
    ∀ (c : Cache) (T : Nat → Nat → Nat) (t : Nat), CacheInv c T t →
      canonical_run c trace = run c trace := by
  induction trace with
  | nil => intro c T t _; rfl
  | cons a as ih =>
    intro c T t inv
    simp only [canonical_run, run, canonical_access_eq inv a]
    exact ih _ _ _ (inv.step a)

theorem same_recency_order_refl (c : Cache) : same_recency_order c c :=
  fun _ _ _ => Iff.rfl

/-- Started from a set in which two valid lines have the same counter, a state
that no run reaches, the two updates do differ: `lru_touch` ages the tied line,
the canonical update does not. -/
theorem touch_differs_on_tied_set :
    (lru_touch { lines := [⟨true, 0, 1⟩, ⟨true, 1, 1⟩, ⟨true, 2, 2⟩], ways := 3 } 0).lines =
      [⟨true, 0, 0⟩, ⟨true, 1, 2⟩, ⟨true, 2, 2⟩] ∧
    (canonical_touch { lines := [⟨true, 0, 1⟩, ⟨true, 1, 1⟩, ⟨true, 2, 2⟩], ways := 3 } 0).lines =
      [⟨true, 0, 0⟩, ⟨true, 1, 1⟩, ⟨true, 2, 2⟩] := by
  decide

theorem run_append (as bs : List Nat) : ∀ (c : Cache), run c (as ++ bs) = run (run c as) bs := by
  induction as with
  | nil => intro c; rfl
  | cons a as ih => intro c; simp only [List.cons_append, run]; exact ih _

theorem getElem?_of_getD_valid (ls : List CacheLine) (u : Nat)
    (h : (ls.getD u default).valid = true) : ∃ l, ls[u]? = some l ∧ l.valid = true := by
  cases hl : ls[u]? with
  | none =>
    rw [List.getD_eq_getElem?_getD, hl] at h
    exact absurd h (by decide)
  | some l =>
    rw [getD_of_getElem? _ _ _ hl] at h
    exact ⟨l, rfl, h⟩

/-- An access never clears a valid bit. -/
theorem cache_access_valid_mono (c : Cache) (a i u : Nat)
    (h : ((c.sets.getD i default).lines.getD u default).valid = true) :
    (((cache_access c a).2.sets.getD i default).lines.getD u default).valid = true := by
  by_cases hia : set_index c a = i
  · subst hia
    obtain ⟨l, hl, hv⟩ := getElem?_of_getD_valid _ _ h
    have hidx : set_index c a < c.sets.length := by
      by_contra hcon
      have : c.sets.getD (set_index c a) default = default := by
        simp [List.getD_eq_getElem?_getD, List.getElem?_eq_none (Nat.le_of_not_lt hcon)]
      rw [this] at hl
      simp [default] at hl
    rw [cache_access_set c a hidx]
    cases hf : find_hit (addr_tag c a) 0 (c.sets.getD (set_index c a) default).lines with
    | some w =>
      have hg := getElem?_lru_touch_loop
        ((c.sets.getD (set_index c a) default).lines.getD w default).lru w
        (c.sets.getD (set_index c a) default).lines 0 u
      rw [hl, Option.map_some'] at hg
      simp only [lru_touch]
      rw [getD_of_getElem? _ _ _ hg, (touch_line_valid_tag _ _ _ _).1]
      exact hv
    | none =>
      have hne : (c.sets.getD (set_index c a) default).lines ≠ [] := by
        intro he; rw [he] at hl; simp at hl
      have hg := getElem?_install (c.sets.getD (set_index c a) default) _ (addr_tag c a) u
        (lru_victim_lt _ hne)
      rw [hl, Option.map_some'] at hg
      simp only
      rw [getD_of_getElem? _ _ _ hg]
      simp only [install_line, hv]
      split_ifs <;> rfl
  · rw [cache_access_other_set c a i hia]; exact h

theorem run_valid_mono (more : List Nat) :
    ∀ (c : Cache) (i u : Nat), ((c.sets.getD i default).lines.getD u default).valid = true →
      (((run c more).sets.getD i default).lines.getD u default).valid = true := by
  induction more with
  | nil => intro c i u h; exact h
  | cons a as ih =>
    intro c i u h
    simp only [run]
    exact ih _ i u (cache_access_valid_mono c a i u h)

/-- In a set that satisfies the invariant with `k` valid lines, the counters
of the valid lines are exactly the values below `k`. -/
theorem SetInv.lru_onto {lines : List CacheLine} {τ : Nat → Nat} {t k : Nat}
    (inv : SetInv lines τ t k) (r : Nat) (hr : r < k) :
    ∃ u, u < k ∧ (lines.getD u default).lru = r := by
  have hle := inv.le
  have hget : ∀ (u : Nat), u < k → lines[u]? = some (lines.getD u default) :=
    fun u hu => getElem?_getD_of_lt lines u (by omega)
  let f : Fin k → Fin k := fun u =>
    ⟨(lines.getD u.1 default).lru, (inv.bound u.1 _ (hget u.1 u.2) u.2).1⟩
  have hinj : Function.Injective f := by
    intro x y hxy
    have h1 : (lines.getD x.1 default).lru = (lines.getD y.1 default).lru :=
      congrArg Fin.val hxy
    exact Fin.ext (inv.lru_inj x.1 y.1 _ _ (hget x.1 x.2) (hget y.1 y.2) x.2 y.2 h1)
  obtain ⟨u, hu⟩ := Finite.injective_iff_surjective.1 hinj ⟨r, hr⟩
  exact ⟨u.1, u.2, congrArg Fin.val hu⟩

theorem run_ways (trace : List Nat) : ∀ (c : Cache), (run c trace).ways = c.ways := by
  induction trace with
  | nil => intro c; rfl
  | cons x xs ih => intro c; simp only [run]; rw [ih, (cache_access_frame c x).2.1]

theorem cache_create_ways (cs bs w : Nat) (c : Cache) (h : cache_create cs bs w = .ok c) :
    c.ways = w := by
  unfold cache_create at h
  split_ifs at h
  have hc := (Except.ok.inj h).symm
  rw [hc]
  rfl

/-- When `block_size * ways` fits in 32 bits, the associativity of an accepted
configuration divides the cache size, so it is a power of two, and
`ways * block_size` does not exceed the cache size. -/
theorem ways_pow2_of_accepted (cs bs w : Nat) (c : Cache) (hcs : cs < 4294967296)
    (hprod : bs * w < 4294967296) (h : cache_create cs bs w = .ok c) :
    (∃ j, w = 2 ^ j) ∧ w ≤ cs / bs := by
  obtain ⟨a, b, n, ha, hb, -, -, -, hw0, hmul, hc⟩ := cache_create_ok cs bs w c hcs h
  rw [Nat.mod_eq_of_lt hprod, ha] at hmul
  have hbpos : 0 < bs := by rw [hb]; exact Nat.two_pow_pos b
  have hdvd : w ∣ 2 ^ a := ⟨2 ^ n * bs, by rw [← hmul]; ring⟩
  obtain ⟨j, -, hj⟩ := (Nat.dvd_prime_pow Nat.prime_two).1 hdvd
  refine ⟨⟨j, hj⟩, ?_⟩
  rw [Nat.le_div_iff_mul_le hbpos, ha, ← hmul]
  have hnpos : 0 < 2 ^ n := Nat.two_pow_pos n
  calc w * bs = 1 * (bs * w) := by ring
    _ ≤ 2 ^ n * (bs * w) := Nat.mul_le_mul_right _ hnpos

/-- With a product that fits in 32 bits, three ways are never accepted. -/
theorem three_ways_rejected (cs bs : Nat) (hcs : cs < 4294967296)
    (hprod : bs * 3 < 4294967296) : ∃ e, cache_create cs bs 3 = .error e := by
  cases h : cache_create cs bs 3 with
  | error e => exact ⟨e, rfl⟩
  | ok c =>
    obtain ⟨⟨j, hj⟩, -⟩ := ways_pow2_of_accepted cs bs 3 c hcs hprod h
    exfalso
    cases j with
    | zero => simp at hj
    | succ j => rw [pow_succ] at hj; omega

/-- In every state reached from a freshly created cache, the counters of the
valid lines of a set order them by their last touch: a line has the smaller
counter exactly when it was touched later.  This is the order of an LRU stack
whatever its bookkeeping. -/
theorem recency_order_is_touch_order (cs bs w : Nat) (c0 : Cache)
    (hcs : cs < 4294967296) (hw : w < 4294967296) (hc : cache_create cs bs w = .ok c0)
    (trace : List Nat) (i u1 u2 : Nat) (l1 l2 : CacheLine)
    (hi : i < (run c0 trace).num_sets)
    (h1 : ((run c0 trace).sets.getD i default).lines[u1]? = some l1)
    (h2 : ((run c0 trace).sets.getD i default).lines[u2]? = some l2)
    (hv1 : l1.valid = true) (hv2 : l2.valid = true) :
    l1.lru < l2.lru ↔ last_touch c0 trace i u2 < last_touch c0 trace i u1 := by
  have inv := CacheInv.reachable cs bs w c0 hcs hw hc trace
  obtain ⟨k, hk⟩ := inv.sets_inv i hi
  exact hk.order u1 u2 l1 l2 h1 h2 ((hk.valid_iff u1 l1 h1).1 hv1) ((hk.valid_iff u2 l2 h2).1 hv2)

/-- On any set, `lru_touch` and the canonical update give different results
exactly when a valid line other than the touched one has the counter of the
touched line. -/
theorem touch_differs_iff_tie (set : CacheSet) (h : Nat) :
    canonical_touch set h ≠ lru_touch set h ↔
      ∃ (u : Nat) (l : CacheLine), u ≠ h ∧ set.lines[u]? = some l ∧ l.valid = true ∧
        l.lru = (set.lines.getD h default).lru := by
  constructor
  · intro hne
    by_contra hno
    apply hne
    have hlines : canonical_touch_loop (set.lines.getD h default).lru h 0 set.lines =
        lru_touch_loop (set.lines.getD h default).lru h 0 set.lines := by
      apply List.ext_getElem?
      intro u
      rw [getElem?_canonical_touch_loop, getElem?_lru_touch_loop, Nat.zero_add]
      cases hl : set.lines[u]? with
      | none => rfl
      | some l =>
        simp only [Option.map_some', Option.some.injEq]
        by_cases huh : u = h
        · simp [canonical_touch_line, touch_line, huh]
        · have hneq : (u == h) = false := by simpa using huh
          cases hval : l.valid
          · simp [canonical_touch_line, touch_line, hneq, hval]
          · have hdist : l.lru ≠ (set.lines.getD h default).lru := fun he =>
              hno ⟨u, l, huh, hl, hval, he⟩
            generalize (set.lines.getD h default).lru = old at hdist
            by_cases hlt : l.lru < old
            · have hle : l.lru ≤ old := by omega
              simp [canonical_touch_line, touch_line, hneq, hval, hlt, hle]
            · have hle : ¬ l.lru ≤ old := by omega
              simp [canonical_touch_line, touch_line, hneq, hval, hlt, hle]
    simp only [canonical_touch, lru_touch, hlines]
  · rintro ⟨u, l, huh, hl, hval, heq⟩ hsame
    have h1 : (canonical_touch set h).lines[u]? = (lru_touch set h).lines[u]? := by rw [hsame]
    simp only [canonical_touch, lru_touch, getElem?_canonical_touch_loop,
      getElem?_lru_touch_loop, Nat.zero_add, hl, Option.map_some', Option.some.injEq] at h1
    have hneq : (u == h) = false := by simpa using huh
    have hc : canonical_touch_line (set.lines.getD h default).lru h u l = l := by
      simp [canonical_touch_line, hneq, hval, heq]
    have ht : (touch_line (set.lines.getD h default).lru h u l).lru =
        (l.lru + 1) % 4294967296 := by
      rw [← heq]
      simp [touch_line, hneq, hval]
    rw [hc] at h1
    rw [← h1] at ht
    omega

/-- Two different valid lines of a set of a state that satisfies the
invariant have different counters. -/
theorem CacheInv.lru_distinct {c : Cache} {T : Nat → Nat → Nat} {t : Nat}
    (inv : CacheInv c T t) (i u1 u2 : Nat) (l1 l2 : CacheLine)
    (h1 : (c.sets.getD i default).lines[u1]? = some l1)
    (h2 : (c.sets.getD i default).lines[u2]? = some l2)
    (hne : u1 ≠ u2) (hv1 : l1.valid = true) (hv2 : l2.valid = true) :
    l1.lru ≠ l2.lru := by
  have hi : i < c.num_sets := by
    by_contra hcon
    have : c.sets.getD i default = default := by
      simp [List.getD_eq_getElem?_getD,
        List.getElem?_eq_none (by rw [inv.length_sets]; omega : c.sets.length ≤ i)]
    rw [this] at h1
    simp [default] at h1
  obtain ⟨k, hk⟩ := inv.sets_inv i hi
  intro heq
  exact hne (hk.lru_inj u1 u2 l1 l2 h1 h2 ((hk.valid_iff u1 l1 h1).1 hv1)
    ((hk.valid_iff u2 l2 h2).1 hv2) heq)

/-! ## The claims on frame, scenario, LRU behaviour and invariants -/

/-- Claim C11.  An access changes only the addressed set and the counters:
every other entry of the set array, with the valid bit, tag and counter of each
of its lines, is unchanged, the array keeps its length, and the configuration
fields are unchanged. -/
theorem access_changes_only_addressed_set (c : Cache) (a i : Nat)
    (hi : i ≠ set_index c a) :
    (cache_access c a).2.sets[i]? = c.sets[i]? ∧
    (cache_access c a).2.sets.length = c.sets.length ∧
    (cache_access c a).2.num_sets = c.num_sets ∧ (cache_access c a).2.ways = c.ways ∧
    (cache_access c a).2.block_size = c.block_size ∧
    (cache_access c a).2.cache_size = c.cache_size ∧
    (cache_access c a).2.index_mask = c.index_mask ∧
    (cache_access c a).2.index_shift = c.index_shift ∧
    (cache_access c a).2.offset_mask = c.offset_mask := by
  obtain ⟨h1, h2, h3, h4, h5, h6, h7, s, hs⟩ := cache_access_frame c a
  refine ⟨?_, ?_, h1, h2, h3, h4, h5, h6, h7⟩
  · rw [hs, List.getElem?_set_ne (Ne.symm hi)]
  · rw [hs, List.length_set]

theorem access_changes_only_addressed_set_witness :
    cache_create 64 16 1 = .ok cache_64_16_1 ∧ 1 ≠ set_index cache_64_16_1 0 ∧
    (cache_access (run cache_64_16_1 [16, 32]) 0).2.sets[1]? = (run cache_64_16_1 [16, 32]).sets[1]? :=
  ⟨rfl, by decide,
    (access_changes_only_addressed_set (run cache_64_16_1 [16, 32]) 0 1 (by decide)).1⟩

/-- Claim C12.  With 16384 bytes, 16-byte blocks and one way (1024 sets), the
first 20 addresses of the built-in sequence, `0x0, 0x4, ..., 0x3C` followed by
`0x0, 0x4, 0x8, 0xC`, give a MISS on the first access to each of the blocks
0 to 3, a HIT on the three repeats within each block and four HITs at the end:
20 accesses, 16 hits, 4 misses. -/
theorem builtin_scenario_counts :
    ∃ c, cache_create 16384 16 1 = .ok c ∧ c.num_sets = 1024 ∧
      builtin_seq.take 20 =
        [0x0, 0x4, 0x8, 0xC, 0x10, 0x14, 0x18, 0x1C, 0x20, 0x24, 0x28, 0x2C,
         0x30, 0x34, 0x38, 0x3C, 0x0, 0x4, 0x8, 0xC] ∧
      outcomes c (builtin_seq.take 20) =
        [0, 1, 1, 1, 0, 1, 1, 1, 0, 1, 1, 1, 0, 1, 1, 1, 1, 1, 1, 1] ∧
      (run c (builtin_seq.take 20)).accesses = 20 ∧
      (run c (builtin_seq.take 20)).hits = 16 ∧
      (run c (builtin_seq.take 20)).misses = 4 :=
  ⟨_, rfl, by decide, by decide, by decide, by decide, by decide, by decide⟩

/-- Claim C14.  For every set and way `hit_way`, `lru_touch` keeps the number
of lines and every valid bit and tag, sets the counter of line `hit_way` to 0,
adds one (as a `uint32_t`, so modulo `2 ^ 32`, and exactly one below the
largest value) to the counter of every other valid line whose counter was at
most the old counter of the touched line, and leaves the counter of every
other line, invalid or with a larger counter, unchanged. -/
theorem lru_touch_spec (set : CacheSet) (hit_way : Nat) :
    (lru_touch set hit_way).ways = set.ways ∧
    (lru_touch set hit_way).lines.length = set.lines.length ∧
    ∀ (u : Nat) (l : CacheLine), set.lines[u]? = some l →
      ∃ l2, (lru_touch set hit_way).lines[u]? = some l2 ∧
        l2.valid = l.valid ∧ l2.tag = l.tag ∧
        (u = hit_way → l2.lru = 0) ∧
        (u ≠ hit_way → l.valid = true → l.lru ≤ (set.lines.getD hit_way default).lru →
          l2.lru = (l.lru + 1) % 4294967296 ∧ (l.lru + 1 < 4294967296 → l2.lru = l.lru + 1)) ∧
        (u ≠ hit_way → (l.valid = false ∨ (set.lines.getD hit_way default).lru < l.lru) →
          l2.lru = l.lru) := by
  refine ⟨rfl, by simp only [lru_touch, length_lru_touch_loop], ?_⟩
  intro u l hl
  obtain ⟨h0, hinc, hsame⟩ := touch_line_lru (set.lines.getD hit_way default).lru hit_way u l
  refine ⟨touch_line (set.lines.getD hit_way default).lru hit_way u l, ?_, ?_, ?_, h0, ?_, hsame⟩
  · simp only [lru_touch, getElem?_lru_touch_loop, hl, Option.map_some', Nat.zero_add]
  · exact (touch_line_valid_tag _ _ _ _).1
  · exact (touch_line_valid_tag _ _ _ _).2
  · intro hu hv hle
    have hval := hinc hu hv hle
    exact ⟨hval, fun hlt => by rw [hval]; exact Nat.mod_eq_of_lt hlt⟩

theorem lru_touch_spec_witness :
    (lru_touch { lines := [⟨true, 7, 0⟩, ⟨true, 8, 1⟩, ⟨false, 0, 0⟩], ways := 3 } 1).lines.length = 3 ∧
    ∃ l2, (lru_touch { lines := [⟨true, 7, 0⟩, ⟨true, 8, 1⟩, ⟨false, 0, 0⟩], ways := 3 } 1).lines[0]?
        = some l2 ∧ l2.valid = true ∧ l2.tag = 7 ∧ l2.lru = 1 := by
  have h := lru_touch_spec { lines := [⟨true, 7, 0⟩, ⟨true, 8, 1⟩, ⟨false, 0, 0⟩], ways := 3 } 1
  obtain ⟨l2, h1, h2, h3, -, h5, -⟩ := h.2.2 0 ⟨true, 7, 0⟩ (by decide)
  exact ⟨h.2.1, l2, h1, h2, h3, (h5 (by decide) rfl (by decide)).2 (by decide)⟩

/-- Claim C15.  For a set with at least one line, `lru_victim` is below the
number of lines; if some line is invalid it is the lowest index of an invalid
line; if all lines are valid its counter is the largest of the set and every
line before it has a strictly smaller counter, so it is the lowest index that
attains the maximum. -/
theorem lru_victim_lowest (set : CacheSet) (hways : set.lines ≠ []) :
    lru_victim set < set.lines.length ∧
    ((∃ l ∈ set.lines, l.valid = false) →
      (set.lines.getD (lru_victim set) default).valid = false ∧
      ∀ (u : Nat), u < lru_victim set → (set.lines.getD u default).valid = true) ∧
    ((∀ l ∈ set.lines, l.valid = true) →
      (∀ (u : Nat), u < set.lines.length →
        (set.lines.getD u default).lru ≤ (set.lines.getD (lru_victim set) default).lru) ∧
      (∀ (u : Nat), u < lru_victim set →
        (set.lines.getD u default).lru < (set.lines.getD (lru_victim set) default).lru)) := by
  unfold lru_victim
  cases hfi : first_invalid 0 set.lines with
  | some j =>
    obtain ⟨u, l, hj, hget, hval, hfirst⟩ := first_invalid_some set.lines 0 j hfi
    rw [Nat.zero_add] at hj
    subst hj
    have hlt := getElem?_lt_length _ _ _ hget
    simp only
    refine ⟨hlt, ?_, ?_⟩
    · intro _
      refine ⟨by rw [getD_of_getElem? _ _ _ hget]; exact hval, ?_⟩
      intro u2 hu2
      have hget2 : set.lines[u2]? = some set.lines[u2] := List.getElem?_eq_getElem (by omega)
      rw [getD_of_getElem? _ _ _ hget2]
      exact hfirst u2 _ hu2 hget2
    · intro hall
      have := hall l (List.getElem?_mem hget)
      rw [hval] at this
      exact absurd this (by simp)
  | none =>
    have hallv := first_invalid_none set.lines 0 hfi
    simp only
    cases hlines : set.lines with
    | nil => exact absurd hlines hways
    | cons l0 ls =>
      simp only
      have hinv : ¬ ∃ l ∈ l0 :: ls, l.valid = false := by
        rintro ⟨l, hl, hv⟩
        obtain ⟨n, hn⟩ := List.mem_iff_getElem?.1 hl
        have := hallv n l (by rw [hlines]; exact hn)
        rw [hv] at this
        exact absurd this (by simp)
      rcases max_lru_loop_first ls 1 0 l0.lru with
        ⟨hr, hmax⟩ | ⟨u, l, hr, hget, hlt, hmax, hbefore⟩
      · rw [hr]
        refine ⟨by simp, fun h => absurd h hinv, fun _ => ⟨?_, fun u hu => by omega⟩⟩
        intro u hu
        cases u with
        | zero => simp
        | succ u =>
          have hu2 : u < ls.length := by simpa using hu
          have hget2 : ls[u]? = some ls[u] := List.getElem?_eq_getElem hu2
          have := hmax u _ hget2
          simpa [List.getD_eq_getElem?_getD, hget2] using this
      · rw [hr]
        have hulen := getElem?_lt_length _ _ _ hget
        have hvD : (l0 :: ls).getD (1 + u) default = l := by
          rw [show 1 + u = u + 1 by omega]
          simp [List.getD_eq_getElem?_getD, hget]
        rw [hvD]
        refine ⟨by simp; omega, fun h => absurd h hinv, fun _ => ⟨?_, ?_⟩⟩
        · intro u2 hu2
          cases u2 with
          | zero => simp; omega
          | succ u2 =>
            have hu3 : u2 < ls.length := by simpa using hu2
            have hget2 : ls[u2]? = some ls[u2] := List.getElem?_eq_getElem hu3
            have := hmax u2 _ hget2
            simpa [List.getD_eq_getElem?_getD, hget2] using this
        · intro u2 hu2
          cases u2 with
          | zero => simp; omega
          | succ u2 =>
            have hu3 : u2 < ls.length := by omega
            have hget2 : ls[u2]? = some ls[u2] := List.getElem?_eq_getElem hu3
            have := hbefore u2 _ (by omega) hget2
            simpa [List.getD_eq_getElem?_getD, hget2] using this

theorem lru_victim_lowest_witness :
    ({ lines := [⟨true, 0, 1⟩, ⟨true, 1, 3⟩, ⟨true, 2, 3⟩], ways := 3 } : CacheSet).lines ≠ [] ∧
    lru_victim { lines := [⟨true, 0, 1⟩, ⟨true, 1, 3⟩, ⟨true, 2, 3⟩], ways := 3 } = 1 ∧
    lru_victim { lines := [⟨true, 0, 1⟩, ⟨true, 1, 3⟩, ⟨true, 2, 3⟩], ways := 3 } <
      ({ lines := [⟨true, 0, 1⟩, ⟨true, 1, 3⟩, ⟨true, 2, 3⟩], ways := 3 } : CacheSet).lines.length :=
  ⟨by decide, by decide,
    (lru_victim_lowest { lines := [⟨true, 0, 1⟩, ⟨true, 1, 3⟩, ⟨true, 2, 3⟩], ways := 3 }
      (by decide)).1⟩

/-- Claim C16.  When `cache_access` returns MISS on a state whose addressed set
exists and has at least one line, afterwards the victim line `lru_victim set`
is valid, holds the tag of the address and has counter 0; every other line
keeps its valid bit and tag, a valid one has its counter increased by one (as
a `uint32_t`, exactly one below the largest value), and an invalid one is
unchanged. -/
theorem miss_installs_and_ages (c : Cache) (a : Nat)
    (hmiss : (cache_access c a).1 = 0)
    (hidx : set_index c a < c.sets.length)
    (hways : (addressed_set c a).lines ≠ []) :
    lru_victim (addressed_set c a) < (addressed_set c a).lines.length ∧
    (addressed_set (cache_access c a).2 a).lines.length = (addressed_set c a).lines.length ∧
    (addressed_set (cache_access c a).2 a).lines[lru_victim (addressed_set c a)]? =
      some { valid := true, tag := addr_tag c a, lru := 0 } ∧
    ∀ (u : Nat) (l : CacheLine), u ≠ lru_victim (addressed_set c a) →
      (addressed_set c a).lines[u]? = some l →
      ∃ l2, (addressed_set (cache_access c a).2 a).lines[u]? = some l2 ∧
        l2.valid = l.valid ∧ l2.tag = l.tag ∧
        (l.valid = true →
          l2.lru = (l.lru + 1) % 4294967296 ∧ (l.lru + 1 < 4294967296 → l2.lru = l.lru + 1)) ∧
        (l.valid = false → l2 = l) := by
  have hv := lru_victim_lt (addressed_set c a) hways
  have hfind := (cache_access_result_miss c a).1 hmiss
  have hset : (addressed_set (cache_access c a).2 a).lines =
      (install (addressed_set c a) (lru_victim (addressed_set c a)) (addr_tag c a)).lines := by
    simp only [addressed_set, set_index_cache_access]
    rw [cache_access_set c a hidx, hfind]
  obtain ⟨lv, hlv⟩ : ∃ lv, (addressed_set c a).lines[lru_victim (addressed_set c a)]? = some lv :=
    ⟨_, List.getElem?_eq_getElem hv⟩
  refine ⟨hv, by rw [hset, length_install], ?_, ?_⟩
  · rw [hset, getElem?_install _ _ _ _ hv, hlv]
    simp [install_line]
  · intro u l hu hl
    refine ⟨install_line (lru_victim (addressed_set c a)) (addr_tag c a) u l, ?_, ?_⟩
    · rw [hset, getElem?_install _ _ _ _ hv, hl]; rfl
    · cases hval : l.valid
      · simp [install_line, hu, hval]
      · have hl2 : install_line (lru_victim (addressed_set c a)) (addr_tag c a) u l =
            { l with lru := (l.lru + 1) % 4294967296 } := by
          simp [install_line, hu, hval]
        rw [hl2]
        refine ⟨hval, rfl, fun _ => ⟨rfl, fun hlt => Nat.mod_eq_of_lt hlt⟩, ?_⟩
        intro h; exact absurd h (by simp)

theorem miss_installs_and_ages_witness :
    (cache_access (run cache_32_16_2 [0]) 256).1 = 0 ∧
    set_index (run cache_32_16_2 [0]) 256 < (run cache_32_16_2 [0]).sets.length ∧
    (addressed_set (run cache_32_16_2 [0]) 256).lines ≠ [] ∧
    (addressed_set (cache_access (run cache_32_16_2 [0]) 256).2 256).lines[
        lru_victim (addressed_set (run cache_32_16_2 [0]) 256)]? =
      some { valid := true, tag := addr_tag (run cache_32_16_2 [0]) 256, lru := 0 } :=
  ⟨by decide, by decide, by decide,
    (miss_installs_and_ages (run cache_32_16_2 [0]) 256 (by decide) (by decide) (by decide)).2.2.1⟩

/-- Claim C17, as amended.  After every sequence of accesses to a freshly
created cache, the state equals the state of a cache that updates hit lines as
a canonical LRU stack does, ageing only lines strictly more recent than the
touched one, so every set has the same recency order.  On any set the two
updates differ exactly when a valid line other than the touched one has the
counter of the touched line.  No reached state has such a set: two different
valid lines of a set never have the same counter, every hit touches a valid
line, and there the two updates agree. -/
theorem lru_touch_matches_canonical (cs bs w : Nat) (c0 : Cache)
    (hcs : cs < 4294967296) (hw : w < 4294967296) (hc : cache_create cs bs w = .ok c0)
    (trace : List Nat) :
    canonical_run c0 trace = run c0 trace ∧
    same_recency_order (run c0 trace) (canonical_run c0 trace) ∧
    (∀ (set : CacheSet) (h : Nat),
      canonical_touch set h ≠ lru_touch set h ↔
        ∃ (u : Nat) (l : CacheLine), u ≠ h ∧ set.lines[u]? = some l ∧ l.valid = true ∧
          l.lru = (set.lines.getD h default).lru) ∧
    (∀ (i u1 u2 : Nat) (l1 l2 : CacheLine),
      ((run c0 trace).sets.getD i default).lines[u1]? = some l1 →
      ((run c0 trace).sets.getD i default).lines[u2]? = some l2 →
      u1 ≠ u2 → l1.valid = true → l2.valid = true → l1.lru ≠ l2.lru) ∧
    (∀ (a h : Nat),
      find_hit (addr_tag (run c0 trace) a) 0 (addressed_set (run c0 trace) a).lines = some h →
      ((addressed_set (run c0 trace) a).lines.getD h default).valid = true ∧
      canonical_touch (addressed_set (run c0 trace) a) h =
        lru_touch (addressed_set (run c0 trace) a) h) := by
  have inv0 := CacheInv.of_create cs bs w c0 hcs hw hc (fun _ _ => 0)
  have heq := canonical_run_eq trace c0 (fun _ _ => 0) 0 inv0
  have inv := CacheInv.reachable cs bs w c0 hcs hw hc trace
  refine ⟨heq, by rw [heq]; exact same_recency_order_refl _, touch_differs_iff_tie,
    fun i u1 u2 l1 l2 h1 h2 hne hv1 hv2 => inv.lru_distinct i u1 u2 l1 l2 h1 h2 hne hv1 hv2, ?_⟩
  intro a h hfind
  obtain ⟨u, l, hu, hget, hv, -, -⟩ := find_hit_some _ _ 0 h hfind
  rw [Nat.zero_add] at hu
  subst hu
  refine ⟨by rw [getD_of_getElem? _ _ _ hget]; exact hv, ?_⟩
  by_contra hdiff
  obtain ⟨u2, l2, hne, hget2, hv2, hl2⟩ := (touch_differs_iff_tie _ _).1 hdiff
  rw [getD_of_getElem? _ _ _ hget] at hl2
  exact inv.lru_distinct (set_index (run c0 trace) a) u2 h l2 l hget2 hget hne hv2 hv hl2

theorem lru_touch_matches_canonical_witness :
    cache_create 32 16 2 = .ok cache_32_16_2 ∧
    canonical_run cache_32_16_2 [0, 256, 0, 512, 256] = run cache_32_16_2 [0, 256, 0, 512, 256] ∧
    canonical_touch (addressed_set (run cache_32_16_2 [0, 256]) 0) 0 =
      lru_touch (addressed_set (run cache_32_16_2 [0, 256]) 0) 0 :=
  ⟨rfl, (lru_touch_matches_canonical 32 16 2 cache_32_16_2 (by decide) (by decide) rfl
    [0, 256, 0, 512, 256]).1,
    ((lru_touch_matches_canonical 32 16 2 cache_32_16_2 (by decide) (by decide) rfl
      [0, 256]).2.2.2.2 0 0 (by decide)).2⟩

/-- Claim C17, as stated, is false: there is no accepted configuration and
sequence of accesses to the freshly created cache after which some set has a
recency order different from the one of the canonical LRU stack. -/
theorem no_trace_separates_canonical :
    ¬ ∃ (cs bs w : Nat) (c0 : Cache) (trace : List Nat),
      cs < 4294967296 ∧ w < 4294967296 ∧ cache_create cs bs w = .ok c0 ∧
      ¬ same_recency_order (run c0 trace) (canonical_run c0 trace) := by
  rintro ⟨cs, bs, w, c0, trace, hcs, hw, hc, hne⟩
  apply hne
  rw [canonical_run_eq trace c0 (fun _ _ => 0) 0 (CacheInv.of_create cs bs w c0 hcs hw hc _)]
  exact same_recency_order_refl _

/-- Claim C18.  In every state reached from a freshly created cache, in every
set the valid lines are exactly the first `k` ways for some `k ≤ ways`; their
counters are pairwise different, below `k`, and take every value below `k`;
every invalid line has counter 0; no counter exceeds `ways - 1` or leaves the
32-bit range; and a valid line stays valid under any further accesses. -/
theorem reachable_set_shape (cs bs w : Nat) (c0 : Cache)
    (hcs : cs < 4294967296) (hw : w < 4294967296) (hc : cache_create cs bs w = .ok c0)
    (trace : List Nat) (i : Nat) (hi : i < (run c0 trace).num_sets) :
    ∃ k, k ≤ w ∧ ((run c0 trace).sets.getD i default).lines.length = w ∧
      (∀ (u : Nat), u < w →
        ((((run c0 trace).sets.getD i default).lines.getD u default).valid = true ↔ u < k)) ∧
      (∀ (u1 u2 : Nat), u1 < k → u2 < k →
        (((run c0 trace).sets.getD i default).lines.getD u1 default).lru =
          (((run c0 trace).sets.getD i default).lines.getD u2 default).lru → u1 = u2) ∧
      (∀ (r : Nat), r < k →
        ∃ u, u < k ∧ (((run c0 trace).sets.getD i default).lines.getD u default).lru = r) ∧
      (∀ (u : Nat), u < k →
        (((run c0 trace).sets.getD i default).lines.getD u default).lru < k) ∧
      (∀ (u : Nat), k ≤ u → u < w →
        (((run c0 trace).sets.getD i default).lines.getD u default).lru = 0) ∧
      (∀ (u : Nat), u < w →
        (((run c0 trace).sets.getD i default).lines.getD u default).lru ≤ w - 1 ∧
        (((run c0 trace).sets.getD i default).lines.getD u default).lru < 4294967296) ∧
      (∀ (more : List Nat) (u : Nat),
        (((run c0 trace).sets.getD i default).lines.getD u default).valid = true →
        (((run c0 (trace ++ more)).sets.getD i default).lines.getD u default).valid = true) := by
  have inv := CacheInv.reachable cs bs w c0 hcs hw hc trace
  obtain ⟨k, hk⟩ := inv.sets_inv i hi
  have hlen : ((run c0 trace).sets.getD i default).lines.length = w := by
    rw [inv.length_lines i hi, run_ways, cache_create_ways cs bs w c0 hc]
  have hle := hk.le
  have hget : ∀ (u : Nat), u < w → ((run c0 trace).sets.getD i default).lines[u]? =
      some (((run c0 trace).sets.getD i default).lines.getD u default) :=
    fun u hu => getElem?_getD_of_lt _ u (by omega)
  refine ⟨k, by omega, hlen, ?_, ?_, ?_, ?_, ?_, ?_, ?_⟩
  · intro u hu; exact hk.valid_iff u _ (hget u hu)
  · intro u1 u2 h1 h2 heq
    exact hk.lru_inj u1 u2 _ _ (hget u1 (by omega)) (hget u2 (by omega)) h1 h2 heq
  · intro r hr; exact hk.lru_onto r hr
  · intro u hu; exact (hk.bound u _ (hget u (by omega)) hu).1
  · intro u hku hu; exact hk.fresh u _ (hget u hu) hku
  · intro u hu
    by_cases huk : u < k
    · have := (hk.bound u _ (hget u hu) huk).1
      omega
    · have := hk.fresh u _ (hget u hu) (by omega)
      omega
  · intro more u hv
    rw [run_append]
    exact run_valid_mono more _ i u hv

theorem reachable_set_shape_witness :
    cache_create 32 16 2 = .ok cache_32_16_2 ∧
    ∃ k, k ≤ 2 ∧ ((run cache_32_16_2 [0, 256, 0]).sets.getD 0 default).lines.length = 2 :=
  ⟨rfl, by
    obtain ⟨k, h1, h2, -⟩ := reachable_set_shape 32 16 2 cache_32_16_2 (by decide) (by decide)
      rfl [0, 256, 0] 0 (by decide)
    exact ⟨k, h1, h2⟩⟩

/-- Claim C19.  In every state reached from a freshly created cache, two
different valid lines of the same set hold different tags. -/
theorem reachable_tags_distinct (cs bs w : Nat) (c0 : Cache)
    (hcs : cs < 4294967296) (hw : w < 4294967296) (hc : cache_create cs bs w = .ok c0)
    (trace : List Nat) (i u1 u2 : Nat) (l1 l2 : CacheLine)
    (h1 : ((run c0 trace).sets.getD i default).lines[u1]? = some l1)
    (h2 : ((run c0 trace).sets.getD i default).lines[u2]? = some l2)
    (hne : u1 ≠ u2) (hv1 : l1.valid = true) (hv2 : l2.valid = true) :
    l1.tag ≠ l2.tag := by
  have inv := CacheInv.reachable cs bs w c0 hcs hw hc trace
  have hi : i < (run c0 trace).num_sets := by
    by_contra hcon
    have : (run c0 trace).sets.getD i default = default := by
      simp [List.getD_eq_getElem?_getD,
        List.getElem?_eq_none (by rw [inv.length_sets]; omega : (run c0 trace).sets.length ≤ i)]
    rw [this] at h1
    simp [default] at h1
  obtain ⟨k, hk⟩ := inv.sets_inv i hi
  intro htag
  exact hne (hk.tag_inj u1 u2 l1 l2 h1 h2 ((hk.valid_iff u1 l1 h1).1 hv1)
    ((hk.valid_iff u2 l2 h2).1 hv2) htag)

theorem reachable_tags_distinct_witness :
    cache_create 32 16 2 = .ok cache_32_16_2 ∧
    ((run cache_32_16_2 [0, 256]).sets.getD 0 default).lines[0]? = some ⟨true, 0, 1⟩ ∧
    ((run cache_32_16_2 [0, 256]).sets.getD 0 default).lines[1]? = some ⟨true, 1, 0⟩ ∧
    (⟨true, 0, 1⟩ : CacheLine).tag ≠ (⟨true, 1, 0⟩ : CacheLine).tag :=
  ⟨rfl, by decide, by decide,
    reachable_tags_distinct 32 16 2 cache_32_16_2 (by decide) (by decide) rfl [0, 256] 0 0 1
      ⟨true, 0, 1⟩ ⟨true, 1, 0⟩ (by decide) (by decide) (by decide) rfl rfl⟩

/-- Claim C20.  For an accepted configuration whose product
`block_size * ways` fits in 32 bits, `ways` is a power of two and at most
`cache_size / block_size`. -/
theorem accepted_ways_pow2 (cs bs w : Nat) (c : Cache) (hcs : cs < 4294967296)
    (hprod : bs * w < 4294967296) (h : cache_create cs bs w = .ok c) :
    (∃ j, w = 2 ^ j) ∧ w ≤ cs / bs ∧ c.ways = w :=
  ⟨(ways_pow2_of_accepted cs bs w c hcs hprod h).1, (ways_pow2_of_accepted cs bs w c hcs hprod h).2,
    cache_create_ways cs bs w c h⟩

theorem accepted_ways_pow2_witness :
    cache_create 32 16 2 = .ok cache_32_16_2 ∧ (∃ j, 2 = 2 ^ j) ∧ 2 ≤ 32 / 16 :=
  ⟨rfl, (accepted_ways_pow2 32 16 2 cache_32_16_2 (by decide) (by decide) rfl).1,
    (accepted_ways_pow2 32 16 2 cache_32_16_2 (by decide) (by decide) rfl).2.1⟩

end CacheSim
